import Mathlib

/-!
Verification development for a Flask-based S3 prefix server.

The program serves S3 prefixes over HTTP.  Its core is:

* `_recursive_download` - recursively mirrors a remote prefix into a local
  directory tree via an `S3FileSystem` client;
* `download_prefix` - materializes one prefix: cleans stale state, runs the
  recursive download, and packages multi-path results into a `.tar.gz`
  archive, returning an `LruPathEntry`;
* a `functools.lru_cache(maxsize=cache_size)` wrapper around
  `download_prefix` whose eviction drops the `LruPathEntry`, whose
  finalizer (`__del__`) deletes the on-disk artifact;
* `get_s3_prefix` - the Flask route: allow-list check, remote existence
  check, then the cached materialization, with error responses
  `access_error` / `not_found_error` (status 405) and `generic_error`
  (status 500).

The embedding below models the filesystem as an explicit `Disk` state
(finite sets of directory and file paths), the store client as a pure
record of query functions (so its answers are stable within one run), and
Python exceptions as an `Except` result.  Event lists (`Ev`) are ghost
instrumentation recording which side-effecting statements executed, in
program order; they add no behavior.
-/

/-! ## Strings as paths -/

/-- Character-list view of Python `str.startswith`: `pre` is a prefix of `s`. -/
def startswith (s pre : String) : Bool :=
  pre.data.isPrefixOf s.data

/-- Model of `str.rstrip('/')`: drop all trailing slashes. -/
def rstripSlash (s : String) : String :=
  ⟨(s.data.reverse.dropWhile (· == '/')).reverse⟩

/-- Model of `os.path.split(s)[1]`: the part after the last slash
(the whole string if there is no slash). -/
def basename (s : String) : String :=
  ⟨(s.data.reverse.takeWhile (· != '/')).reverse⟩

/-- Model of `os.path.split(s)[0]` for our uses: the part before the last
slash (empty if there is no slash). -/
def dirname (s : String) : String :=
  ⟨((s.data.reverse.dropWhile (· != '/')).reverse).dropLast⟩

/-- Model of `os.path.join a b` for a non-empty `a` and a relative `b`:
insert a slash unless `a` already ends with one. -/
def pjoin (a b : String) : String :=
  if a.data.getLast? = some '/' then a ++ b else a ++ "/" ++ b

/-- The path `p` lies strictly inside the directory `d` (string test used
by the `Disk` model of `shutil.rmtree`). -/
def underB (d p : String) : Bool :=
  (d ++ "/").data.isPrefixOf p.data

/-- The string has no slash in it (true of md5 hex digests and of
`basename` results). -/
def noSlash (s : String) : Prop :=
  ('/' : Char) ∉ s.data

instance (s : String) : Decidable (noSlash s) := by
  unfold noSlash; infer_instance

/-- Auxiliary for `dirChain`: all cuts of a character list taken just
before each slash, plus the whole list.  `acc` is the reversed prefix
consumed so far. -/
def cutsAux : List Char → List Char → List (List Char)
  | acc, [] => [acc.reverse]
  | acc, c :: rest =>
    if c = '/' then acc.reverse :: cutsAux ('/' :: acc) rest
    else cutsAux (c :: acc) rest

/-- The chain of directories `os.makedirs p` creates: every non-empty
prefix of `p` that ends just before a slash, and `p` itself. -/
def dirChain (p : String) : List String :=
  ((cutsAux [] p.data).filter (· ≠ [])).map (fun l => ⟨l⟩)

/-! ## Disk model -/

/-- Insert a string into a list-as-set. -/
def insStr (xs : List String) (x : String) : List String :=
  if xs.contains x then xs else x :: xs

/-- The local filesystem as finite sets of existing directory and file
paths. -/
structure Disk where
  dirs : List String
  files : List String
deriving DecidableEq

/-- Model of `os.path.isdir`. -/
def Disk.isdirD (d : Disk) (p : String) : Bool :=
  d.dirs.contains p

/-- Model of `os.path.isfile`. -/
def Disk.isfileD (d : Disk) (p : String) : Bool :=
  d.files.contains p

/-- Model of `shutil.rmtree p`: remove `p` and everything below it. -/
def Disk.rmtree (d : Disk) (p : String) : Disk :=
  ⟨d.dirs.filter (fun q => !(q == p || underB p q)),
   d.files.filter (fun q => !(q == p || underB p q))⟩

/-- Model of `os.remove p`. -/
def Disk.rmfile (d : Disk) (p : String) : Disk :=
  ⟨d.dirs, d.files.filter (fun q => q != p)⟩

/-- Model of `os.makedirs p` / the program's `mkdir_p`: create `p` and all
missing ancestors. -/
def Disk.mkdirpAll (d : Disk) (p : String) : Disk :=
  ⟨(dirChain p).foldl insStr d.dirs, d.files⟩

/-- Record a file as existing. -/
def Disk.addFile (d : Disk) (p : String) : Disk :=
  ⟨d.dirs, insStr d.files p⟩

/-- Effect of a successful `fs.download(key, dest)`: fsspec creates the
destination's parent directories and writes the file. -/
def Disk.dlTo (d : Disk) (dest : String) : Disk :=
  (d.mkdirpAll (dirname dest)).addFile dest

/-! ## Store client and Python errors -/

/-- Python exceptions the embedded code can raise.  `transferError`
stands for whatever the store client raises on a failed transfer;
`fuelOut` is the embedding's recursion-depth bound, not a program
behavior. -/
inductive PyErr
  | fileNotFound
  | valueError
  | typeError
  | permissionError
  | transferError
  | fuelOut
deriving DecidableEq

/-- The `S3FileSystem` collaborator, reduced to the interface the code
uses.  `dl k` is `none` when downloading key `k` succeeds and `some e`
when it raises `e`.  A fixed record makes the client's answers stable
within a run. -/
structure S3FS where
  isdir : String → Bool
  ls : String → List String
  dl : String → Option PyErr
  exObj : String → Bool

/-- Ghost events recording which side-effecting statements of the
materialization pipeline ran, in program order. -/
inductive Ev
  | enter (depth : Nat) (parent child : String)
  | dl (key dest : String)
  | rmStaleDir (d : String)
  | rmStaleArchive (p : String)
  | mkArchive (p : String)
  | rmDirAfterArchive (d : String)
deriving DecidableEq

deriving instance DecidableEq for Except

/-- Result of a recursive-download run: produced local paths (or the
raised error), the disk afterwards, and the ghost event log. -/
structure ROut where
  res : Except PyErr (List String)
  disk : Disk
  evs : List Ev
deriving DecidableEq

/-! ## The materialization pipeline -/

/-- Left-to-right processing of the sub-prefixes of one directory level,
as the `itertools.chain.from_iterable` generator consumed by `list(...)`
does it: each child is handed to `step` (the recursive call one level
deeper); the first raised error aborts the remaining children.  An
`Ev.enter depth parent child` ghost event marks each child whose
processing started. -/
def rdListF (depth : Nat) (parent : String) (step : String → Disk → ROut) :
    List String → Disk → ROut
  | [], disk => ⟨.ok [], disk, []⟩
  | c :: cs, disk =>
    let r := step c disk
    match r.res with
    | .error e => ⟨.error e, r.disk, .enter depth parent c :: r.evs⟩
    | .ok ps =>
      let r2 := rdListF depth parent step cs r.disk
      match r2.res with
      | .error e => ⟨.error e, r2.disk, .enter depth parent c :: (r.evs ++ r2.evs)⟩
      | .ok ps2 => ⟨.ok (ps ++ ps2), r2.disk, .enter depth parent c :: (r.evs ++ r2.evs)⟩

/-- Embedding of `FlaskWebServer._recursive_download`.  `fuel` bounds the
recursion depth (the Python code recurses as deep as the remote tree);
`depth` is ghost, only used to tag `enter` events.

Directory case: take the current directory's name, drop the first listed
entry (the code's `_, *prefixes_to_download = self.fs.ls(prefix)`, which
raises `ValueError` on an empty listing), create the local directory,
recurse into every remaining child, and return the local directory path
followed by the children's paths.  Leaf case: download the object next to
its basename and return that single path. -/
def recursiveDownload (fs : S3FS) : Nat → Nat → String → String → Disk → ROut
  | 0, _, _, _, disk => ⟨.error .fuelOut, disk, []⟩
  | fuel + 1, depth, pfx, cachingDir, disk =>
    if fs.isdir pfx then
      let currentDir := basename (rstripSlash pfx)
      match fs.ls pfx with
      | [] => ⟨.error .valueError, disk, []⟩
      | _ :: rest =>
        let cachingDir1 := pjoin cachingDir currentDir
        let disk1 := disk.mkdirpAll cachingDir1
        let cachingDir2 := rstripSlash cachingDir1 ++ "/"
        let sub := rdListF depth pfx
          (fun c d => recursiveDownload fs fuel (depth + 1) c cachingDir2 d) rest disk1
        match sub.res with
        | .error e => ⟨.error e, sub.disk, sub.evs⟩
        | .ok paths => ⟨.ok (rstripSlash cachingDir2 :: paths), sub.disk, sub.evs⟩
    else
      let fn := basename pfx
      let destination := pjoin cachingDir fn
      match fs.dl pfx with
      | some e => ⟨.error e, disk, [.dl pfx destination]⟩
      | none => ⟨.ok [destination], disk.dlTo destination, [.dl pfx destination]⟩

/-- Result of one `download_prefix` call: the returned artifact path (or
the raised error), the disk afterwards, and the ghost event log. -/
structure DOut where
  res : Except PyErr String
  disk : Disk
  evs : List Ev
deriving DecidableEq

/-- The `# clean up previously cached files` step of `download_prefix`:
remove a stale caching directory left over from an earlier attempt. -/
def clearStale (disk : Disk) (cachingDir : String) : Disk × List Ev :=
  if disk.isdirD cachingDir then (disk.rmtree cachingDir, [.rmStaleDir cachingDir])
  else (disk, [])

/-- Embedding of `FlaskWebServer.download_prefix`.  `cp` is
`self.cache_prefix`, `hash` is `self.hash_string` (md5 of the prefix,
kept abstract).  It mirrors the source: compute the caching directory and
(only for directory prefixes) the archive name, clear stale state, run
the recursive download, raise `FileNotFoundError` on an empty result,
archive when more than one path was produced (removing a pre-existing
archive first, then deleting the uncompressed directory), and otherwise
return the single produced path. -/
def downloadPrefix (cp : String) (hash : String → String) (fs : S3FS)
    (fuel : Nat) (pfx : String) (disk : Disk) : DOut :=
  let cachingDir := pjoin cp (hash pfx)
  let compressed : Option String :=
    if fs.isdir pfx then some (cachingDir ++ ".tar.gz") else none
  let c := clearStale disk cachingDir
  let r := recursiveDownload fs fuel 0 pfx cachingDir c.1
  match r.res with
  | .error e => ⟨.error e, r.disk, c.2 ++ r.evs⟩
  | .ok [] => ⟨.error .fileNotFound, r.disk, c.2 ++ r.evs⟩
  | .ok [p] => ⟨.ok p, r.disk, c.2 ++ r.evs⟩
  | .ok (_ :: _ :: _) =>
    match compressed with
    | none => ⟨.error .typeError, r.disk, c.2 ++ r.evs⟩
    | some arch =>
      let s := if r.disk.isfileD arch then (r.disk.rmfile arch, [Ev.rmStaleArchive arch])
               else (r.disk, [])
      let disk3 := (s.1.addFile arch).rmtree cachingDir
      ⟨.ok arch, disk3, c.2 ++ r.evs ++ s.2 ++ [.mkArchive arch, .rmDirAfterArchive cachingDir]⟩

/-! ## The LRU cache over materialized entries -/

/-- Embedding of `LruPathEntry.__del__`: when the entry's path still
exists, delete it (a tree for directories, a single file otherwise). -/
def delEntry (disk : Disk) (path : String) : Disk :=
  if disk.isdirD path then disk.rmtree path
  else if disk.isfileD path then disk.rmfile path
  else disk

/-- State of the memoized `download_prefix`: the `functools.lru_cache`
table as a most-recently-used-first association list from prefix to
artifact path, plus the disk. -/
structure CacheState where
  entries : List (String × String)
  disk : Disk
deriving DecidableEq

/-- Result of one cached `get` call. -/
structure GOut where
  res : Except PyErr String
  st : CacheState
deriving DecidableEq

/-- One call of the `functools.lru_cache(maxsize)`-wrapped
`download_prefix` (sequential semantics).  A hit moves the entry to
most-recently-used.  A miss runs `downloadPrefix`; an error caches
nothing (CPython's `lru_cache` does not cache exceptions) but keeps the
disk effects.  A successful miss inserts the entry as
most-recently-used; when the table then exceeds `maxsize`, the
least-recently-used entry is dropped, and dropping the last reference to
its `LruPathEntry` runs the finalizer that deletes its artifact.  With
`maxsize = 0`, `lru_cache` caches nothing. -/
def cacheGet (cp : String) (hash : String → String) (fs : S3FS)
    (maxsize fuel : Nat) (st : CacheState) (pfx : String) : GOut :=
  match st.entries.find? (fun e => e.1 == pfx) with
  | some e =>
    ⟨.ok e.2, ⟨(pfx, e.2) :: st.entries.filter (fun e2 => e2.1 != pfx), st.disk⟩⟩
  | none =>
    let d := downloadPrefix cp hash fs fuel pfx st.disk
    match d.res with
    | .error e => ⟨.error e, ⟨st.entries, d.disk⟩⟩
    | .ok p =>
      if maxsize = 0 then ⟨.ok p, ⟨st.entries, d.disk⟩⟩
      else
        let entries1 := (pfx, p) :: st.entries
        if maxsize < entries1.length then
          match entries1.getLast? with
          | some evicted => ⟨.ok p, ⟨entries1.dropLast, delEntry d.disk evicted.2⟩⟩
          | none => ⟨.ok p, ⟨entries1, d.disk⟩⟩
        else ⟨.ok p, ⟨entries1, d.disk⟩⟩

/-- A finite sequence of `get` calls, continuing after failures (the
server keeps serving after an error response). -/
def runGets (cp : String) (hash : String → String) (fs : S3FS)
    (maxsize fuel : Nat) : List String → CacheState → CacheState
  | [], st => st
  | p :: ps, st => runGets cp hash fs maxsize fuel ps (cacheGet cp hash fs maxsize fuel st p).st

/-- A freshly started server: no cache entries; the constructor's
`mkdir_p(self.cache_prefix)` has created the cache namespace. -/
def initState (cp : String) : CacheState :=
  ⟨[], ⟨dirChain cp, []⟩⟩

/-! ## The HTTP front end -/

/-- Responses of `get_s3_prefix`, by constructor: the splash page, a
served file, `access_error`, `not_found_error`, `generic_error`. -/
inductive Resp
  | splash
  | fileResp (path : String)
  | accessErr (path : String)
  | notFoundErr (path : String)
  | genericErr (e : PyErr)
deriving DecidableEq

/-- HTTP status of each response, as the source returns it: `access_error`
and `not_found_error` both return 405, `generic_error` returns 500,
anything served succeeds with 200. -/
def respStatus : Resp → Nat
  | .splash => 200
  | .fileResp _ => 200
  | .accessErr _ => 405
  | .notFoundErr _ => 405
  | .genericErr _ => 500

/-- The allow-list test of `get_s3_prefix`:
`any(path.startswith(p) for p in self.buckets)`. -/
def allowCheck (buckets : List String) (path : String) : Bool :=
  buckets.any (fun b => startswith path b)

/-- Embedding of `FlaskWebServer.get_s3_prefix`: splash on the empty
route, the allow-list check, the remote existence check, then the cached
materialization; a raised `PermissionError` is answered like an
allow-list failure, any other exception with `generic_error`.  (Streaming
the file with `send_file` is modeled as always succeeding.) -/
def getS3Prefix (buckets : List String) (cp : String) (hash : String → String)
    (fs : S3FS) (maxsize fuel : Nat) (st : CacheState) (path? : Option String) :
    Resp × CacheState :=
  match path? with
  | none => (.splash, st)
  | some path =>
    if !(allowCheck buckets path) then (.accessErr path, st)
    else if !(fs.exObj path) then (.notFoundErr path, st)
    else
      let g := cacheGet cp hash fs maxsize fuel st path
      match g.res with
      | .ok p => (.fileResp p, g.st)
      | .error PyErr.permissionError => (.accessErr path, g.st)
      | .error e => (.genericErr e, g.st)

/-! ## Concurrent calls through `functools.lru_cache`

Flask dispatches each request on its own worker thread, and all of them
go through the one `lru_cache`-wrapped `download_prefix`.  CPython's
`lru_cache` keeps its table coherent under concurrency but explicitly
allows the wrapped function to run more than once when several threads
miss on the same uncached key before the first call is cached; a thread
whose insert finds the key already cached keeps its own result.  The
model below fixes one previously-uncached key and gives each requesting
thread three atomic steps: table lookup, execution of the
`download_prefix` body (counted by `counter`, each execution numbered),
and table insert. -/

/-- One requesting thread: `pc = 0` before the lookup, `1` before running
the body, `2` before the insert, `3` done; `val` is the materialization
number it holds. -/
structure ThreadSt where
  pc : Nat
  val : Nat
deriving DecidableEq

/-- Shared state: the cache slot for the one key, the count of body
executions, and all threads. -/
structure ConcSt where
  cache : Option Nat
  counter : Nat
  threads : List ThreadSt
deriving DecidableEq

/-- Execute the next atomic step of thread `t` (no step if `t` is done or
out of range). -/
def concStep (s : ConcSt) (t : Nat) : ConcSt :=
  match s.threads.get? t with
  | none => s
  | some th =>
    match th.pc with
    | 0 =>
      match s.cache with
      | some v => ⟨s.cache, s.counter, s.threads.set t ⟨3, v⟩⟩
      | none => ⟨s.cache, s.counter, s.threads.set t ⟨1, th.val⟩⟩
    | 1 => ⟨s.cache, s.counter + 1, s.threads.set t ⟨2, s.counter⟩⟩
    | 2 =>
      match s.cache with
      | some _ => ⟨s.cache, s.counter, s.threads.set t ⟨3, th.val⟩⟩
      | none => ⟨some th.val, s.counter, s.threads.set t ⟨3, th.val⟩⟩
    | _ => s

/-- `n` threads about to request the same previously-uncached key. -/
def concInit (n : Nat) : ConcSt :=
  ⟨none, 0, List.replicate n ⟨0, 0⟩⟩

/-- Run a schedule (a list of thread indices, each entry executing one
atomic step of that thread). -/
def concRun (n : Nat) (sched : List Nat) : ConcSt :=
  sched.foldl concStep (concInit n)

/-- The schedule in which thread 0 completes its whole call before any
other thread starts: the calls are sequential, not overlapping. -/
def seqSched (n : Nat) : List Nat :=
  [0, 0, 0] ++ List.range' 1 (n - 1)

/-! ## Observer functions on ghost events -/

/-- Events a `recursiveDownload` run can emit, with every `enter` event
at depth at least `d`: the run only descends, so events from the level at
depth `d` downward are tagged `d` or deeper.  Archive-related events
never come from `recursiveDownload`. -/
def rdEv (d : Nat) : Ev → Prop
  | .enter d2 _ _ => d ≤ d2
  | .dl _ _ => True
  | _ => False

/-- The children entered at exactly depth `d`, in processing order. -/
def entersAt (d : Nat) (evs : List Ev) : List String :=
  evs.filterMap (fun e =>
    match e with
    | .enter d2 _ c => if d2 = d then some c else none
    | _ => none)

/-- A `download_prefix` outcome that is not the `TypeError` of testing
`os.path.isfile(None)` on a missing archive name. -/
def noTypeErr (o : DOut) : Bool :=
  match o.res with
  | .error .typeError => false
  | _ => true

/-! ## Concrete store fixtures for witnesses and counterexamples -/

/-- A store with one directory prefix `b/d` listing itself first and two
leaf objects; all downloads succeed. -/
def fs3 : S3FS :=
  ⟨fun p => p == "b/d",
   fun p => if p == "b/d" then ["b/d", "b/d/f1", "b/d/f2"] else [],
   fun _ => none,
   fun _ => true⟩

/-- A store in which every prefix is a leaf object and every download
succeeds. -/
def fsLeaf : S3FS :=
  ⟨fun _ => false, fun _ => [], fun _ => none, fun _ => true⟩

/-- A store with a directory prefix `b/d` whose listing holds only the
directory marker itself: the prefix expands to zero retrievable
objects. -/
def fsEmptyDir : S3FS :=
  ⟨fun p => p == "b/d",
   fun p => if p == "b/d" then ["b/d"] else [],
   fun _ => none,
   fun _ => true⟩

/-- A store like `fs3` but where downloading the second object raises a
transfer error, aborting the materialization half-way. -/
def fsFail : S3FS :=
  ⟨fun p => p == "b/d",
   fun p => if p == "b/d" then ["b/d", "b/d/f1", "b/d/f2"] else [],
   fun k => if k == "b/d/f2" then some .transferError else none,
   fun _ => true⟩

/-- A store whose downloads raise `PermissionError`. -/
def fsPerm : S3FS :=
  ⟨fun _ => false, fun _ => [], fun _ => some .permissionError, fun _ => true⟩

/-- A store that reports no path as existing. -/
def fsNone : S3FS :=
  ⟨fun _ => false, fun _ => [], fun _ => none, fun _ => false⟩

/-- A concrete stand-in for `hash_string` (md5): distinct slash-free
digests for the keys the fixtures use. -/
def hashT : String → String :=
  fun s =>
    if s == "b/d" then "hd"
    else if s == "b/a" then "ha"
    else if s == "b/b" then "hb"
    else if s == "b/c" then "hc"
    else "hx"

/-! ## Helper lemmas: strings and paths -/

theorem slash_data : ("/" : String).data = ['/'] := rfl

theorem pjoin_data (a b : String) (ha : a.data.getLast? ≠ some '/') :
    (pjoin a b).data = a.data ++ '/' :: b.data := by
  unfold pjoin
  rw [if_neg ha, String.data_append, String.data_append, slash_data]
  simp

theorem pjoin_data_slash (a b : String) (ha : a.data.getLast? = some '/') :
    (pjoin a b).data = a.data ++ b.data := by
  unfold pjoin
  rw [if_pos ha, String.data_append]

theorem mem_cutsAux {q : List Char} :
    ∀ (l acc : List Char), q ∈ cutsAux acc l → q <+: acc.reverse ++ l := by
  intro l
  induction l with
  | nil =>
    intro acc h
    simp [cutsAux] at h
    simpa [h] using List.prefix_append q []
  | cons c rest ih =>
    intro acc h
    by_cases hc : c = '/'
    · subst hc
      simp [cutsAux] at h
      rcases h with h | h
      · simpa [h] using List.prefix_append acc.reverse ('/' :: rest)
      · have := ih ('/' :: acc) h
        simpa using this
    · simp [cutsAux, hc] at h
      have := ih (c :: acc) h
      simpa using this

theorem mem_dirChain {q p : String} (h : q ∈ dirChain p) : q.data <+: p.data := by
  unfold dirChain at h
  simp only [List.mem_map, List.mem_filter] at h
  obtain ⟨l, ⟨hl, _⟩, rfl⟩ := h
  simpa using mem_cutsAux p.data [] hl

theorem contains_iff_mem {xs : List String} {x : String} :
    xs.contains x = true ↔ x ∈ xs :=
  List.elem_iff

theorem contains_false {xs : List String} {x : String} (h : ∀ q ∈ xs, q ≠ x) :
    xs.contains x = false := by
  rcases hc : xs.contains x with _ | _
  · rfl
  · exact absurd (contains_iff_mem.mp hc) (fun hm => h x hm rfl)

theorem mem_insStr {xs : List String} {x q : String} :
    q ∈ insStr xs x ↔ q ∈ xs ∨ q = x := by
  unfold insStr
  by_cases hc : xs.contains x = true
  · rw [if_pos hc]
    constructor
    · exact fun h => Or.inl h
    · rintro (h | rfl)
      · exact h
      · exact contains_iff_mem.mp hc
  · rw [if_neg hc]
    simp [or_comm]

theorem mem_foldl_insStr {q : String} :
    ∀ (xs init : List String), q ∈ xs.foldl insStr init ↔ q ∈ init ∨ q ∈ xs := by
  intro xs
  induction xs with
  | nil => simp
  | cons x xs ih =>
    intro init
    rw [List.foldl_cons, ih]
    rw [mem_insStr]
    simp [or_assoc, or_comm, or_left_comm]

theorem basename_noSlash (s : String) : noSlash (basename s) := by
  unfold noSlash basename
  intro h
  simp only [List.mem_reverse] at h
  have := List.mem_takeWhile_imp h
  simp at this

theorem noSlash_getLast {B : List Char} (hB : B ≠ []) (hnb : '/' ∉ B) :
    ∀ {L : List Char}, (L ++ B).getLast? ≠ some '/' := by
  intro L
  rw [List.getLast?_append]
  rw [List.getLast?_eq_getLast B hB]
  intro h
  simp [Option.or] at h
  exact hnb (h ▸ List.getLast_mem hB)

theorem not_prefix_longer {X Y : List Char} (h : Y.length < X.length) : ¬ X <+: Y :=
  fun hp => absurd hp.length_le (by omega)

theorem not_prefix_slashFree {X : List Char} (hX : '/' ∉ X) (A B : List Char) :
    ¬ (A ++ '/' :: B <+: X) := by
  intro h
  exact hX (h.subset (by simp))

theorem slash_split_inj :
    ∀ {A C : List Char}, '/' ∉ A → '/' ∉ C → ∀ {B D : List Char},
      A ++ '/' :: B = C ++ '/' :: D → A = C ∧ B = D := by
  intro A
  induction A with
  | nil =>
    intro C hA hC B D h
    cases C with
    | nil => simpa using h
    | cons c C' =>
      simp at h
      obtain ⟨hc, -⟩ := h
      exact absurd (hc ▸ List.mem_cons_self c C') (by simpa [← hc] using hC)
  | cons a A' ih =>
    intro C hA hC B D h
    cases C with
    | nil =>
      exfalso
      apply hA
      have ha : a = '/' := by
        have := congrArg (fun l => l.head?) h
        simpa using this
      simp [ha]
    | cons c C' =>
      simp only [List.cons_append, List.cons.injEq] at h
      obtain ⟨rfl, h2⟩ := h
      have hA' : '/' ∉ A' := fun hm => hA (List.mem_cons_of_mem _ hm)
      have hC' : '/' ∉ C' := fun hm => hC (List.mem_cons_of_mem _ hm)
      obtain ⟨rfl, rfl⟩ := ih hA' hC' h2
      exact ⟨rfl, rfl⟩

theorem data_ne_nil {s : String} (h : s ≠ "") : s.data ≠ [] := by
  intro hd
  exact h (String.ext (by simpa using hd))

theorem dirname_eq {s d b : String} (hs : s.data = d.data ++ '/' :: b.data)
    (hb : noSlash b) : dirname s = d := by
  apply String.ext
  unfold dirname
  rw [hs]
  have h1 : (d.data ++ '/' :: b.data).reverse = b.data.reverse ++ '/' :: d.data.reverse := by
    simp
  rw [h1]
  have h2 : List.dropWhile (fun c => c != '/') b.data.reverse = [] := by
    rw [List.dropWhile_eq_nil_iff]
    intro x hx
    simp only [List.mem_reverse] at hx
    have : x ≠ '/' := fun he => hb (he ▸ hx)
    simpa using this
  rw [List.dropWhile_append, h2]
  simp

theorem rstripSlash_eq {s : String} (h : s.data.getLast? ≠ some '/') :
    rstripSlash s = s := by
  apply String.ext
  unfold rstripSlash
  rcases hs : s.data.reverse with _ | ⟨c, rest⟩
  · simp at hs
    simp [hs]
  · have hc : c ≠ '/' := by
      intro hc
      apply h
      rw [← List.head?_reverse, hs, hc]
      rfl
    have hcb : (c == '/') = false := by simpa using hc
    rw [List.dropWhile_cons, hcb]
    simp [← hs]

/-! ## Helper lemmas: shape of the recursive download -/

theorem rd_leaf (fs : S3FS) (fuel depth : Nat) (pfx cachingDir : String) (disk : Disk)
    (hd : fs.isdir pfx = false) (hdl : fs.dl pfx = none) :
    recursiveDownload fs (fuel + 1) depth pfx cachingDir disk =
      ⟨.ok [pjoin cachingDir (basename pfx)],
       disk.dlTo (pjoin cachingDir (basename pfx)),
       [.dl pfx (pjoin cachingDir (basename pfx))]⟩ := by
  simp [recursiveDownload, hd, hdl]

theorem rd_singleton_of_not_isdir {fs : S3FS} {fuel depth : Nat}
    {pfx cd : String} {disk : Disk} {ps : List String}
    (hd : fs.isdir pfx = false)
    (h : (recursiveDownload fs fuel depth pfx cd disk).res = .ok ps) :
    ps = [pjoin cd (basename pfx)] := by
  cases fuel with
  | zero => simp [recursiveDownload] at h
  | succ n =>
    rcases hdl : fs.dl pfx with _ | e
    · rw [rd_leaf fs n depth pfx cd disk hd hdl] at h
      simpa using h.symm
    · simp [recursiveDownload, hd, hdl] at h

theorem rd_ne_nil {fs : S3FS} {fuel depth : Nat}
    {pfx cd : String} {disk : Disk} {ps : List String}
    (h : (recursiveDownload fs fuel depth pfx cd disk).res = .ok ps) :
    ps ≠ [] := by
  intro hps
  subst hps
  cases fuel with
  | zero => simp [recursiveDownload] at h
  | succ n =>
    by_cases hd : fs.isdir pfx
    · rcases hls : fs.ls pfx with _ | ⟨m, rest⟩
      · simp [recursiveDownload, hd, hls] at h
      · simp only [recursiveDownload, hd, hls, if_pos] at h
        rcases hr : (rdListF depth pfx
            (fun c d => recursiveDownload fs n (depth + 1) c
              (rstripSlash (pjoin cd (basename (rstripSlash pfx))) ++ "/") d)
            rest ((disk.mkdirpAll (pjoin cd (basename (rstripSlash pfx)))))).res with _ | _
        · simp [hr] at h
        · simp [hr] at h
    · rcases hdl : fs.dl pfx with _ | e
      · rw [rd_leaf fs n depth pfx cd disk (by simpa using hd) hdl] at h
        simp at h
      · simp [recursiveDownload, hd, hdl] at h

/-! ## Helper lemmas: ghost events of the recursive download -/

theorem rdEv_mono {d : Nat} {e : Ev} (h : rdEv (d + 1) e) : rdEv d e := by
  cases e <;> simp [rdEv] at h ⊢ <;> omega

theorem rdListF_cons_error {depth : Nat} {par : String} {step : String → Disk → ROut}
    {c : String} {cs : List String} {disk : Disk} {e1 : PyErr}
    (hr : (step c disk).res = .error e1) :
    rdListF depth par step (c :: cs) disk =
      ⟨.error e1, (step c disk).disk, .enter depth par c :: (step c disk).evs⟩ := by
  simp [rdListF, hr]

theorem rdListF_cons_ok_error {depth : Nat} {par : String} {step : String → Disk → ROut}
    {c : String} {cs : List String} {disk : Disk} {ps1 : List String} {e2 : PyErr}
    (hr : (step c disk).res = .ok ps1)
    (hr2 : (rdListF depth par step cs (step c disk).disk).res = .error e2) :
    rdListF depth par step (c :: cs) disk =
      ⟨.error e2, (rdListF depth par step cs (step c disk).disk).disk,
       .enter depth par c ::
         ((step c disk).evs ++ (rdListF depth par step cs (step c disk).disk).evs)⟩ := by
  simp [rdListF, hr, hr2]

theorem rdListF_cons_ok_ok {depth : Nat} {par : String} {step : String → Disk → ROut}
    {c : String} {cs : List String} {disk : Disk} {ps1 ps2 : List String}
    (hr : (step c disk).res = .ok ps1)
    (hr2 : (rdListF depth par step cs (step c disk).disk).res = .ok ps2) :
    rdListF depth par step (c :: cs) disk =
      ⟨.ok (ps1 ++ ps2), (rdListF depth par step cs (step c disk).disk).disk,
       .enter depth par c ::
         ((step c disk).evs ++ (rdListF depth par step cs (step c disk).disk).evs)⟩ := by
  simp [rdListF, hr, hr2]

theorem rdListF_ev {depth : Nat} {par : String} {step : String → Disk → ROut}
    (hstep : ∀ c d e, e ∈ (step c d).evs → rdEv (depth + 1) e) :
    ∀ (cs : List String) (disk : Disk) (e : Ev),
      e ∈ (rdListF depth par step cs disk).evs → rdEv depth e := by
  intro cs
  induction cs with
  | nil => intro disk e he; simp [rdListF] at he
  | cons c cs ih =>
    intro disk e he
    rcases hr : (step c disk).res with e1 | ps1
    · rw [rdListF_cons_error hr] at he
      rw [List.mem_cons] at he
      rcases he with rfl | he
      · simp [rdEv]
      · exact rdEv_mono (hstep c disk e he)
    · rcases hr2 : (rdListF depth par step cs (step c disk).disk).res with e2 | ps2
      · rw [rdListF_cons_ok_error hr hr2] at he
        rw [List.mem_cons, List.mem_append] at he
        rcases he with rfl | he | he
        · simp [rdEv]
        · exact rdEv_mono (hstep c disk e he)
        · exact ih _ e he
      · rw [rdListF_cons_ok_ok hr hr2] at he
        rw [List.mem_cons, List.mem_append] at he
        rcases he with rfl | he | he
        · simp [rdEv]
        · exact rdEv_mono (hstep c disk e he)
        · exact ih _ e he

theorem rd_ev {fs : S3FS} :
    ∀ (fuel depth : Nat) (pfx cd : String) (disk : Disk) (e : Ev),
      e ∈ (recursiveDownload fs fuel depth pfx cd disk).evs → rdEv depth e := by
  intro fuel
  induction fuel with
  | zero => intro depth pfx cd disk e he; simp [recursiveDownload] at he
  | succ n ih =>
    intro depth pfx cd disk e he
    by_cases hd : fs.isdir pfx
    · rcases hls : fs.ls pfx with _ | ⟨m, rest⟩
      · simp [recursiveDownload, hd, hls] at he
      · simp only [recursiveDownload, hd, hls, if_pos] at he
        split at he <;>
          exact rdListF_ev (fun c d e2 he2 => ih (depth + 1) c _ d e2 he2) rest _ e he
    · rcases hdl : fs.dl pfx with _ | e1 <;>
        simp [recursiveDownload, hd, hdl] at he <;>
        simp [he, rdEv]

theorem entersAt_append (d : Nat) (xs ys : List Ev) :
    entersAt d (xs ++ ys) = entersAt d xs ++ entersAt d ys := by
  simp [entersAt]

theorem entersAt_cons_self (d : Nat) (par c : String) (l : List Ev) :
    entersAt d (.enter d par c :: l) = c :: entersAt d l := by
  simp [entersAt]

theorem entersAt_deeper {d : Nat} {evs : List Ev}
    (h : ∀ e ∈ evs, rdEv (d + 1) e) : entersAt d evs = [] := by
  induction evs with
  | nil => rfl
  | cons e evs ih =>
    have h1 := h e (List.mem_cons_self e evs)
    have h2 : entersAt d evs = [] := ih (fun x hx => h x (List.mem_cons_of_mem _ hx))
    cases e with
    | enter d2 par c =>
      simp only [rdEv] at h1
      have hne : d2 ≠ d := by omega
      simpa [entersAt, hne] using h2
    | dl k de => simpa [entersAt] using h2
    | rmStaleDir x => simp [rdEv] at h1
    | rmStaleArchive x => simp [rdEv] at h1
    | mkArchive x => simp [rdEv] at h1
    | rmDirAfterArchive x => simp [rdEv] at h1

theorem rdListF_entersAt {depth : Nat} {par : String} {step : String → Disk → ROut}
    (hstep : ∀ c d e, e ∈ (step c d).evs → rdEv (depth + 1) e) :
    ∀ (cs : List String) (disk : Disk) (ps : List String),
      (rdListF depth par step cs disk).res = .ok ps →
      entersAt depth (rdListF depth par step cs disk).evs = cs := by
  intro cs
  induction cs with
  | nil => intro disk ps h; simp [rdListF, entersAt]
  | cons c cs ih =>
    intro disk ps h
    rcases hr : (step c disk).res with e1 | ps1
    · rw [rdListF_cons_error hr] at h
      simp at h
    · rcases hr2 : (rdListF depth par step cs (step c disk).disk).res with e2 | ps2
      · rw [rdListF_cons_ok_error hr hr2] at h
        simp at h
      · rw [rdListF_cons_ok_ok hr hr2]
        have h1 : entersAt depth ((step c disk).evs) = [] :=
          entersAt_deeper (fun e he => hstep c disk e he)
        have h2 : entersAt depth ((rdListF depth par step cs (step c disk).disk).evs) = cs :=
          ih _ ps2 hr2
        show entersAt depth (Ev.enter depth par c ::
          ((step c disk).evs ++ (rdListF depth par step cs (step c disk).disk).evs)) = c :: cs
        rw [entersAt_cons_self, entersAt_append, h1, h2]
        rfl

/-! ## Claim C8: directory enumeration excludes exactly the marker entry -/

/-- C8: for a directory-like prefix whose listing is the directory marker
entry `d` followed by the remaining children (the marker listed first and
not repeated, as the code's `ignore the first item, which is the
directory itself` assumes), a successful recursive download descends into
exactly the store's listing minus the marker: the children entered at the
top level are precisely `rest`, and `rest` is the listing with only `d`
removed. -/
theorem c8_children_descended (fs : S3FS) (fuel : Nat) (pfx cd : String) (disk : Disk)
    (d : String) (rest : List String) (ps : List String)
    (hdir : fs.isdir pfx = true)
    (hls : fs.ls pfx = d :: rest)
    (hnotin : d ∉ rest)
    (hok : (recursiveDownload fs fuel 0 pfx cd disk).res = .ok ps) :
    entersAt 0 (recursiveDownload fs fuel 0 pfx cd disk).evs = rest ∧
      rest = (fs.ls pfx).filter (fun x => x != d) := by
  constructor
  · cases fuel with
    | zero => simp [recursiveDownload] at hok
    | succ n =>
      simp only [recursiveDownload, hdir, hls, if_pos] at hok ⊢
      rcases hsub : (rdListF 0 pfx
          (fun c dk => recursiveDownload fs n 1 c
            (rstripSlash (pjoin cd (basename (rstripSlash pfx))) ++ "/") dk)
          rest ((disk.mkdirpAll (pjoin cd (basename (rstripSlash pfx)))))).res with e1 | ps2
      · rw [hsub] at hok
        simp at hok
      · rw [hsub] at hok
        simp only [hsub]
        exact rdListF_entersAt (fun c dk e he => rd_ev n 1 c _ dk e he) rest _ ps2 hsub
  · rw [hls, List.filter_cons]
    have h1 : rest.filter (fun x => x != d) = rest :=
      List.filter_eq_self.mpr (fun a ha => by
        have hne : a ≠ d := fun he => hnotin (he ▸ ha)
        simpa using hne)
    simp [h1]

/-- Witness for C8 on the concrete store `fs3`: the listing of `b/d` is
the marker plus two children, and a run with enough fuel succeeds and
descends into exactly those two children. -/
theorem c8_children_descended_witness :
    fs3.isdir ("b/d") = true ∧
    fs3.ls ("b/d") = "b/d" :: ["b/d/f1", "b/d/f2"] ∧
    "b/d" ∉ (["b/d/f1", "b/d/f2"] : List String) ∧
    (recursiveDownload fs3 2 0 ("b/d") ("/c/hd") ⟨["/c"], []⟩).res =
      .ok ["/c/hd/d", "/c/hd/d/f1", "/c/hd/d/f2"] ∧
    (entersAt 0 (recursiveDownload fs3 2 0 ("b/d") ("/c/hd") ⟨["/c"], []⟩).evs =
        ["b/d/f1", "b/d/f2"] ∧
      ["b/d/f1", "b/d/f2"] = (fs3.ls ("b/d")).filter (fun x => x != "b/d")) :=
  ⟨by decide, by decide, by decide, by decide,
   c8_children_descended fs3 2 ("b/d") ("/c/hd") ⟨["/c"], []⟩ ("b/d")
     ["b/d/f1", "b/d/f2"] ["/c/hd/d", "/c/hd/d/f1", "/c/hd/d/f2"]
     (by decide) (by decide) (by decide) (by decide)⟩

/-! ## Claim C10: the archive name is never `None` when used -/

theorem rdListF_no_typeErr {depth : Nat} {par : String} {step : String → Disk → ROut}
    (hstep : ∀ c d, (step c d).res ≠ .error PyErr.typeError) :
    ∀ (cs : List String) (disk : Disk),
      (rdListF depth par step cs disk).res ≠ .error PyErr.typeError := by
  intro cs
  induction cs with
  | nil => intro disk; simp [rdListF]
  | cons c cs ih =>
    intro disk
    rcases hr : (step c disk).res with e1 | ps1
    · rw [rdListF_cons_error hr]
      intro hcon
      simp at hcon
      exact hstep c disk (by rw [hr, hcon])
    · rcases hr2 : (rdListF depth par step cs (step c disk).disk).res with e2 | ps2
      · rw [rdListF_cons_ok_error hr hr2]
        intro hcon
        simp at hcon
        exact ih _ (by rw [hr2, hcon])
      · rw [rdListF_cons_ok_ok hr hr2]
        simp

theorem rd_no_typeErr {fs : S3FS} (hfs : ∀ k, fs.dl k ≠ some PyErr.typeError) :
    ∀ (fuel depth : Nat) (pfx cd : String) (disk : Disk),
      (recursiveDownload fs fuel depth pfx cd disk).res ≠ .error PyErr.typeError := by
  intro fuel
  induction fuel with
  | zero => intro depth pfx cd disk; simp [recursiveDownload]
  | succ n ih =>
    intro depth pfx cd disk
    by_cases hd : fs.isdir pfx
    · rcases hls : fs.ls pfx with _ | ⟨m, rest⟩
      · simp [recursiveDownload, hd, hls]
      · simp only [recursiveDownload, hd, hls, if_pos]
        rcases hsub : (rdListF depth pfx
            (fun c dk => recursiveDownload fs n (depth + 1) c
              (rstripSlash (pjoin cd (basename (rstripSlash pfx))) ++ "/") dk)
            rest ((disk.mkdirpAll (pjoin cd (basename (rstripSlash pfx)))))).res with e1 | ps1
        · intro hcon
          simp at hcon
          exact rdListF_no_typeErr (fun c dk => ih (depth + 1) c _ dk) rest _ (by rw [hsub, hcon])
        · simp
    · rcases hdl : fs.dl pfx with _ | e1
      · simp [recursiveDownload, hd, hdl]
      · simp [recursiveDownload, hd, hdl]
        intro hcon
        exact hfs pfx (by rw [hdl, hcon])

/-- C10: in `download_prefix` the archive branch (more than one produced
path) is reachable only when the prefix was classified as a directory, so
the archive target name is never `None` when it is tested or removed: as
long as the store client itself never raises the specific `TypeError`
(`hfs`), no run of `download_prefix` ends in the `TypeError` of passing
`None` to `os.path.isfile`.  The pure store record makes the `isdir`
answer stable across the two calls of one materialization, as the claim
assumes. -/
theorem c10_no_none_archive (cp : String) (hash : String → String) (fs : S3FS)
    (fuel : Nat) (pfx : String) (disk : Disk)
    (hfs : ∀ k, fs.dl k ≠ some PyErr.typeError) :
    noTypeErr (downloadPrefix cp hash fs fuel pfx disk) = true := by
  unfold downloadPrefix noTypeErr
  by_cases hd : fs.isdir pfx
  · simp only [hd, if_pos]
    rcases hr : (recursiveDownload fs fuel 0 pfx (pjoin cp (hash pfx))
        (clearStale disk (pjoin cp (hash pfx))).1).res with e | ps
    · have := rd_no_typeErr hfs fuel 0 pfx (pjoin cp (hash pfx))
        (clearStale disk (pjoin cp (hash pfx))).1
      rw [hr] at this
      rcases e <;> simp_all
    · rcases ps with _ | ⟨p, _ | ⟨q, rest⟩⟩ <;> simp
  · simp only [hd, if_neg, Bool.false_eq_true, not_false_eq_true]
    rcases hr : (recursiveDownload fs fuel 0 pfx (pjoin cp (hash pfx))
        (clearStale disk (pjoin cp (hash pfx))).1).res with e | ps
    · have := rd_no_typeErr hfs fuel 0 pfx (pjoin cp (hash pfx))
        (clearStale disk (pjoin cp (hash pfx))).1
      rw [hr] at this
      rcases e <;> simp_all
    · have hps := rd_singleton_of_not_isdir (by simpa using hd) hr
      subst hps
      simp
/-- Witness for C10: a concrete multi-object directory run hits the
archive branch and indeed does not produce the `TypeError`. -/
theorem c10_no_none_archive_witness :
    (∀ k, fs3.dl k ≠ some PyErr.typeError) ∧
    noTypeErr (downloadPrefix ("/c") hashT fs3 2 ("b/d") ⟨["/c"], []⟩) = true :=
  ⟨fun k => by simp [fs3], c10_no_none_archive ("/c") hashT fs3 2 ("b/d") ⟨["/c"], []⟩
    (fun k => by simp [fs3])⟩

/-! ## Claim C5: empty prefixes and `NotFoundError` -/

/-- C5 (code bug evaluation): materializing the directory prefix `b/d`
whose enumeration yields no children (its listing holds only the marker
entry) does not fail at all: `download_prefix` returns the empty local
directory `/c/hd/d` as the artifact.  The `FileNotFoundError` branch
cannot fire because `_recursive_download` always returns at least the
directory path itself. -/
theorem c5_empty_dir_returns_artifact :
    (downloadPrefix ("/c") hashT fsEmptyDir 2 ("b/d") ⟨["/c"], []⟩).res = .ok ("/c/hd/d") ∧
    (downloadPrefix ("/c") hashT fsEmptyDir 2 ("b/d") ⟨["/c"], []⟩).disk.isdirD ("/c/hd/d") =
      true := by
  constructor
  · decide
  · decide

/-! ## Equations for one cached `get` call -/

theorem cacheGet_hit {cp : String} {hash : String → String} {fs : S3FS}
    {maxsize fuel : Nat} {st : CacheState} {pfx : String} {e0 : String × String}
    (hf : st.entries.find? (fun e => e.1 == pfx) = some e0) :
    cacheGet cp hash fs maxsize fuel st pfx =
      ⟨.ok e0.2, ⟨(pfx, e0.2) :: st.entries.filter (fun e2 => e2.1 != pfx), st.disk⟩⟩ := by
  simp [cacheGet, hf]

theorem cacheGet_miss_error {cp : String} {hash : String → String} {fs : S3FS}
    {maxsize fuel : Nat} {st : CacheState} {pfx : String} {e : PyErr}
    (hf : st.entries.find? (fun e => e.1 == pfx) = none)
    (hd : (downloadPrefix cp hash fs fuel pfx st.disk).res = .error e) :
    cacheGet cp hash fs maxsize fuel st pfx =
      ⟨.error e, ⟨st.entries, (downloadPrefix cp hash fs fuel pfx st.disk).disk⟩⟩ := by
  simp [cacheGet, hf, hd]

theorem cacheGet_miss_ok_zero {cp : String} {hash : String → String} {fs : S3FS}
    {fuel : Nat} {st : CacheState} {pfx : String} {p : String}
    (hf : st.entries.find? (fun e => e.1 == pfx) = none)
    (hd : (downloadPrefix cp hash fs fuel pfx st.disk).res = .ok p) :
    cacheGet cp hash fs 0 fuel st pfx =
      ⟨.ok p, ⟨st.entries, (downloadPrefix cp hash fs fuel pfx st.disk).disk⟩⟩ := by
  simp [cacheGet, hf, hd]

theorem cacheGet_miss_ok_evict {cp : String} {hash : String → String} {fs : S3FS}
    {maxsize fuel : Nat} {st : CacheState} {pfx : String} {p : String}
    {ev : String × String}
    (hf : st.entries.find? (fun e => e.1 == pfx) = none)
    (hd : (downloadPrefix cp hash fs fuel pfx st.disk).res = .ok p)
    (hm : maxsize ≠ 0)
    (hlen : maxsize < st.entries.length + 1)
    (hgl : ((pfx, p) :: st.entries).getLast? = some ev) :
    cacheGet cp hash fs maxsize fuel st pfx =
      ⟨.ok p, ⟨((pfx, p) :: st.entries).dropLast,
        delEntry (downloadPrefix cp hash fs fuel pfx st.disk).disk ev.2⟩⟩ := by
  simp [cacheGet, hf, hd, hm, hlen, hgl]

theorem cacheGet_miss_ok_keep {cp : String} {hash : String → String} {fs : S3FS}
    {maxsize fuel : Nat} {st : CacheState} {pfx : String} {p : String}
    (hf : st.entries.find? (fun e => e.1 == pfx) = none)
    (hd : (downloadPrefix cp hash fs fuel pfx st.disk).res = .ok p)
    (hm : maxsize ≠ 0)
    (hlen : ¬ maxsize < st.entries.length + 1) :
    cacheGet cp hash fs maxsize fuel st pfx =
      ⟨.ok p, ⟨(pfx, p) :: st.entries,
        (downloadPrefix cp hash fs fuel pfx st.disk).disk⟩⟩ := by
  simp [cacheGet, hf, hd, hm, hlen]

/-! ## Claim C1: capacity invariant -/

theorem cacheGet_entries_length {cp : String} {hash : String → String} {fs : S3FS}
    {maxsize fuel : Nat} {st : CacheState} {pfx : String}
    (h : st.entries.length ≤ maxsize) :
    ((cacheGet cp hash fs maxsize fuel st pfx).st).entries.length ≤ maxsize := by
  rcases hf : st.entries.find? (fun e => e.1 == pfx) with _ | e0
  · rcases hd : (downloadPrefix cp hash fs fuel pfx st.disk).res with e | p
    · rw [cacheGet_miss_error hf hd]
      exact h
    · by_cases hm : maxsize = 0
      · subst hm
        rw [cacheGet_miss_ok_zero hf hd]
        exact h
      · by_cases hlen : maxsize < st.entries.length + 1
        · rcases hgl : ((pfx, p) :: st.entries).getLast? with _ | ev
          · exact absurd (List.getLast?_eq_none_iff.mp hgl) (by simp)
          · rw [cacheGet_miss_ok_evict hf hd hm hlen hgl]
            simp only [List.length_dropLast, List.length_cons]
            omega
        · rw [cacheGet_miss_ok_keep hf hd hm hlen]
          simp only [List.length_cons]
          omega
  · have hmem : e0 ∈ st.entries := List.mem_of_find?_eq_some hf
    have hpe : (e0.1 == pfx) = true := by
      have := List.find?_some hf
      simpa using this
    have hlt : (st.entries.filter (fun e2 => e2.1 != pfx)).length < st.entries.length := by
      rw [List.length_filter_lt_length_iff_exists]
      exact ⟨e0, hmem, by simp [bne, hpe]⟩
    rw [cacheGet_hit hf]
    simp only [List.length_cons]
    omega

theorem runGets_capacity (cp : String) (hash : String → String) (fs : S3FS)
    (maxsize fuel : Nat) :
    ∀ (seq : List String) (st : CacheState), st.entries.length ≤ maxsize →
      (runGets cp hash fs maxsize fuel seq st).entries.length ≤ maxsize := by
  intro seq
  induction seq with
  | nil => intro st h; simpa [runGets] using h
  | cons p ps ih => intro st h; exact ih _ (cacheGet_entries_length h)

/-- C1: capacity invariant.  For every configured positive capacity and
every finite sequence of `get` calls starting from a fresh server, the
number of live cache entries is at most the capacity.  The sequence is
universally quantified, so the bound holds after each call of any longer
sequence as well (take the truncated sequence). -/
theorem c1_capacity_invariant (cp : String) (hash : String → String) (fs : S3FS)
    (maxsize fuel : Nat) (hpos : 0 < maxsize) (seq : List String) :
    (runGets cp hash fs maxsize fuel seq (initState cp)).entries.length ≤ maxsize :=
  runGets_capacity cp hash fs maxsize fuel seq _ (by simp [initState])

/-- Witness for C1 at capacity 1 and a three-call sequence. -/
theorem c1_capacity_invariant_witness :
    0 < 1 ∧
    (runGets ("/c") hashT fsLeaf 1 3 ["b/a", "b/b", "b/a"] (initState ("/c"))).entries.length ≤
      1 :=
  ⟨by decide, c1_capacity_invariant ("/c") hashT fsLeaf 1 3 (by decide) ["b/a", "b/b", "b/a"]⟩

/-! ## Helper lemmas: disk operations -/

theorem contains_filter_of_pred {l : List String} {pr : String → Bool} {q : String}
    (h : pr q = true) : (l.filter pr).contains q = l.contains q := by
  by_cases hm : q ∈ l
  · have h1 : (l.filter pr).contains q = true :=
      contains_iff_mem.mpr (List.mem_filter.mpr ⟨hm, h⟩)
    have h2 : l.contains q = true := contains_iff_mem.mpr hm
    rw [h1, h2]
  · have h1 : (l.filter pr).contains q = false :=
      contains_false (fun x hx he => hm (he ▸ (List.mem_filter.mp hx).1))
    have h2 : l.contains q = false := contains_false (fun x hx he => hm (he ▸ hx))
    rw [h1, h2]

theorem rmtree_removes (d : Disk) (p q : String) (h : q = p ∨ underB p q = true) :
    (d.rmtree p).isdirD q = false ∧ (d.rmtree p).isfileD q = false := by
  unfold Disk.rmtree Disk.isdirD Disk.isfileD
  constructor <;>
  · apply contains_false
    intro x hx he
    subst he
    have hpred := (List.mem_filter.mp hx).2
    rcases h with rfl | h
    · simp at hpred
    · simp [h] at hpred

theorem isfileD_addFile_self (d : Disk) (p : String) : (d.addFile p).isfileD p = true := by
  unfold Disk.addFile Disk.isfileD
  exact contains_iff_mem.mpr (mem_insStr.mpr (Or.inr rfl))

/-! ## Helper lemmas: archive names -/

theorem tar_ne (cdir : String) : (cdir ++ ".tar.gz") ≠ cdir := by
  intro h
  have hlen := congrArg (fun s => s.data.length) h
  simp [String.data_append] at hlen

theorem underB_tar (cdir : String) : underB cdir (cdir ++ ".tar.gz") = false := by
  have hnp : ¬ ((cdir ++ "/").data <+: (cdir ++ ".tar.gz").data) := by
    rw [String.data_append, String.data_append, slash_data]
    intro hp
    rw [List.prefix_append_right_inj] at hp
    have : ('/' : Char) = '.' := by
      have h2 := (List.cons_prefix_cons.mp hp).1
      exact h2
    simp at this
  unfold underB
  rcases hb : (cdir ++ "/").data.isPrefixOf (cdir ++ ".tar.gz").data with _ | _
  · rfl
  · exact absurd (List.isPrefixOf_iff_prefix.mp hb) hnp

/-! ## Equations for one `download_prefix` call -/

theorem downloadPrefix_err {cp : String} {hash : String → String} {fs : S3FS}
    {fuel : Nat} {pfx : String} {disk : Disk} {e : PyErr}
    (hr : (recursiveDownload fs fuel 0 pfx (pjoin cp (hash pfx))
        (clearStale disk (pjoin cp (hash pfx))).1).res = .error e) :
    downloadPrefix cp hash fs fuel pfx disk =
      ⟨.error e,
       (recursiveDownload fs fuel 0 pfx (pjoin cp (hash pfx))
         (clearStale disk (pjoin cp (hash pfx))).1).disk,
       (clearStale disk (pjoin cp (hash pfx))).2 ++
         (recursiveDownload fs fuel 0 pfx (pjoin cp (hash pfx))
           (clearStale disk (pjoin cp (hash pfx))).1).evs⟩ := by
  simp [downloadPrefix, hr]

theorem downloadPrefix_single {cp : String} {hash : String → String} {fs : S3FS}
    {fuel : Nat} {pfx : String} {disk : Disk} {p0 : String}
    (hr : (recursiveDownload fs fuel 0 pfx (pjoin cp (hash pfx))
        (clearStale disk (pjoin cp (hash pfx))).1).res = .ok [p0]) :
    downloadPrefix cp hash fs fuel pfx disk =
      ⟨.ok p0,
       (recursiveDownload fs fuel 0 pfx (pjoin cp (hash pfx))
         (clearStale disk (pjoin cp (hash pfx))).1).disk,
       (clearStale disk (pjoin cp (hash pfx))).2 ++
         (recursiveDownload fs fuel 0 pfx (pjoin cp (hash pfx))
           (clearStale disk (pjoin cp (hash pfx))).1).evs⟩ := by
  simp [downloadPrefix, hr]

theorem downloadPrefix_multi {cp : String} {hash : String → String} {fs : S3FS}
    {fuel : Nat} {pfx : String} {disk : Disk} {p0 q0 : String} {rest2 : List String}
    (hdir : fs.isdir pfx = true)
    (hr : (recursiveDownload fs fuel 0 pfx (pjoin cp (hash pfx))
        (clearStale disk (pjoin cp (hash pfx))).1).res = .ok (p0 :: q0 :: rest2)) :
    downloadPrefix cp hash fs fuel pfx disk =
      (let cdir := pjoin cp (hash pfx)
       let arch := cdir ++ ".tar.gz"
       let r := recursiveDownload fs fuel 0 pfx cdir (clearStale disk cdir).1
       let s := if r.disk.isfileD arch then (r.disk.rmfile arch, [Ev.rmStaleArchive arch])
                else (r.disk, [])
       ⟨.ok arch, (s.1.addFile arch).rmtree cdir,
        (clearStale disk cdir).2 ++ r.evs ++ s.2 ++
          [.mkArchive arch, .rmDirAfterArchive cdir]⟩) := by
  simp [downloadPrefix, hdir, hr]

theorem clearStale_evs {disk : Disk} {cdir : String} {e : Ev}
    (h : e ∈ (clearStale disk cdir).2) : e = Ev.rmStaleDir cdir := by
  unfold clearStale at h
  by_cases hc : disk.isdirD cdir = true
  · simp [hc] at h
    exact h
  · simp [hc] at h

theorem isfileD_archive_final (x : Disk) (cdir : String) :
    ((x.addFile (cdir ++ ".tar.gz")).rmtree cdir).isfileD (cdir ++ ".tar.gz") = true := by
  show ((x.addFile (cdir ++ ".tar.gz")).rmtree cdir).files.contains (cdir ++ ".tar.gz") = true
  unfold Disk.rmtree Disk.addFile
  simp only []
  rw [contains_filter_of_pred]
  · exact contains_iff_mem.mpr (mem_insStr.mpr (Or.inr rfl))
  · have h1 : ((cdir ++ ".tar.gz") == cdir) = false := by
      simp [tar_ne cdir]
    simp [h1, underB_tar cdir]

/-! ## Claim C3: packaging post-condition of materialization -/

/-- C3: for every prefix whose recursive download produces more than one
local path, `download_prefix` returns exactly
`cacheDir/<hash(prefix)>.tar.gz`, that archive file exists afterwards,
the uncompressed directory (and everything below it) is gone, the
archive-creation step ran, and a pre-existing archive at that name was
removed first; for a prefix producing exactly one path, the call returns
that path with the disk exactly as the recursive download left it and no
archive-creation step runs. -/
theorem c3_packaging (cp : String) (hash : String → String) (fs : S3FS)
    (fuel : Nat) (pfx : String) (disk : Disk) (ps : List String)
    (hr : (recursiveDownload fs fuel 0 pfx (pjoin cp (hash pfx))
        (clearStale disk (pjoin cp (hash pfx))).1).res = .ok ps) :
    (2 ≤ ps.length →
      (downloadPrefix cp hash fs fuel pfx disk).res =
          .ok (pjoin cp (hash pfx) ++ ".tar.gz") ∧
        (downloadPrefix cp hash fs fuel pfx disk).disk.isfileD
          (pjoin cp (hash pfx) ++ ".tar.gz") = true ∧
        (downloadPrefix cp hash fs fuel pfx disk).disk.isdirD (pjoin cp (hash pfx)) = false ∧
        (∀ q2, underB (pjoin cp (hash pfx)) q2 = true →
          (downloadPrefix cp hash fs fuel pfx disk).disk.isdirD q2 = false ∧
            (downloadPrefix cp hash fs fuel pfx disk).disk.isfileD q2 = false) ∧
        Ev.mkArchive (pjoin cp (hash pfx) ++ ".tar.gz") ∈
          (downloadPrefix cp hash fs fuel pfx disk).evs ∧
        ((recursiveDownload fs fuel 0 pfx (pjoin cp (hash pfx))
            (clearStale disk (pjoin cp (hash pfx))).1).disk.isfileD
              (pjoin cp (hash pfx) ++ ".tar.gz") = true →
          Ev.rmStaleArchive (pjoin cp (hash pfx) ++ ".tar.gz") ∈
            (downloadPrefix cp hash fs fuel pfx disk).evs)) ∧
    (∀ p0, ps = [p0] →
      downloadPrefix cp hash fs fuel pfx disk =
        ⟨.ok p0,
         (recursiveDownload fs fuel 0 pfx (pjoin cp (hash pfx))
           (clearStale disk (pjoin cp (hash pfx))).1).disk,
         (clearStale disk (pjoin cp (hash pfx))).2 ++
           (recursiveDownload fs fuel 0 pfx (pjoin cp (hash pfx))
             (clearStale disk (pjoin cp (hash pfx))).1).evs⟩ ∧
      (∀ a, Ev.mkArchive a ∉ (downloadPrefix cp hash fs fuel pfx disk).evs)) := by
  constructor
  · intro hlen2
    rcases ps with _ | ⟨p0, _ | ⟨q0, rest2⟩⟩
    · simp at hlen2
    · simp at hlen2
    · by_cases hd : fs.isdir pfx
      · rw [downloadPrefix_multi hd hr]
        simp only []
        refine ⟨by trivial, ?_, ?_, ?_, ?_, ?_⟩
        · by_cases hstale : (recursiveDownload fs fuel 0 pfx (pjoin cp (hash pfx))
              (clearStale disk (pjoin cp (hash pfx))).1).disk.isfileD
                (pjoin cp (hash pfx) ++ ".tar.gz") = true
          · simp only [hstale, if_true]
            exact isfileD_archive_final _ _
          · simp only [hstale, if_false]
            exact isfileD_archive_final _ _
        · by_cases hstale : (recursiveDownload fs fuel 0 pfx (pjoin cp (hash pfx))
              (clearStale disk (pjoin cp (hash pfx))).1).disk.isfileD
                (pjoin cp (hash pfx) ++ ".tar.gz") = true
          · simp only [hstale, if_true]
            exact (rmtree_removes _ _ _ (Or.inl rfl)).1
          · simp only [hstale, if_false]
            exact (rmtree_removes _ _ _ (Or.inl rfl)).1
        · intro q2 hq2
          by_cases hstale : (recursiveDownload fs fuel 0 pfx (pjoin cp (hash pfx))
              (clearStale disk (pjoin cp (hash pfx))).1).disk.isfileD
                (pjoin cp (hash pfx) ++ ".tar.gz") = true
          · simp only [hstale, if_true]
            exact rmtree_removes _ _ _ (Or.inr hq2)
          · simp only [hstale, if_false]
            exact rmtree_removes _ _ _ (Or.inr hq2)
        · simp
        · intro hstale
          simp [hstale]
      · have := rd_singleton_of_not_isdir (by simpa using hd) hr
        simp at this
  · intro p0 hps
    subst hps
    refine ⟨downloadPrefix_single hr, ?_⟩
    intro a ha
    rw [downloadPrefix_single hr] at ha
    have ha2 : Ev.mkArchive a ∈ (clearStale disk (pjoin cp (hash pfx))).2 ++
        (recursiveDownload fs fuel 0 pfx (pjoin cp (hash pfx))
          (clearStale disk (pjoin cp (hash pfx))).1).evs := ha
    rw [List.mem_append] at ha2
    rcases ha2 with ha2 | ha2
    · have := clearStale_evs ha2
      simp at this
    · have := rd_ev fuel 0 pfx (pjoin cp (hash pfx)) (clearStale disk (pjoin cp (hash pfx))).1
        (Ev.mkArchive a) ha2
      simp [rdEv] at this

/-- Witness for C3: the three-object prefix `b/d` on `fs3` is archived to
`/c/hd.tar.gz` and its uncompressed directory removed, while the leaf
prefix `b/a` on `fsLeaf` is returned unarchived. -/
theorem c3_packaging_witness :
    ((recursiveDownload fs3 2 0 ("b/d") (pjoin ("/c") (hashT ("b/d")))
        (clearStale ⟨["/c"], []⟩ (pjoin ("/c") (hashT ("b/d")))).1).res =
      .ok ["/c/hd/d", "/c/hd/d/f1", "/c/hd/d/f2"]) ∧
    (downloadPrefix ("/c") hashT fs3 2 ("b/d") ⟨["/c"], []⟩).res = .ok ("/c/hd.tar.gz") ∧
    (downloadPrefix ("/c") hashT fs3 2 ("b/d") ⟨["/c"], []⟩).disk.isfileD ("/c/hd.tar.gz") =
      true ∧
    (downloadPrefix ("/c") hashT fs3 2 ("b/d") ⟨["/c"], []⟩).disk.isdirD ("/c/hd") = false ∧
    ((recursiveDownload fsLeaf 2 0 ("b/a") (pjoin ("/c") (hashT ("b/a")))
        (clearStale ⟨["/c"], []⟩ (pjoin ("/c") (hashT ("b/a")))).1).res = .ok ["/c/ha/a"]) ∧
    (downloadPrefix ("/c") hashT fsLeaf 2 ("b/a") ⟨["/c"], []⟩).res = .ok ("/c/ha/a") ∧
    Ev.mkArchive ("/c/ha.tar.gz") ∉
      (downloadPrefix ("/c") hashT fsLeaf 2 ("b/a") ⟨["/c"], []⟩).evs := by
  have hm := c3_packaging ("/c") hashT fs3 2 ("b/d") ⟨["/c"], []⟩
    ["/c/hd/d", "/c/hd/d/f1", "/c/hd/d/f2"] (by decide)
  have hs := c3_packaging ("/c") hashT fsLeaf 2 ("b/a") ⟨["/c"], []⟩ ["/c/ha/a"] (by decide)
  have hm1 := hm.1 (by decide)
  have hs1 := hs.2 ("/c/ha/a") rfl
  have hpjd : pjoin ("/c") (hashT ("b/d")) = "/c/hd" := by decide
  have hpja : pjoin ("/c") (hashT ("b/a")) = "/c/ha" := by decide
  refine ⟨by decide, ?_, ?_, ?_, by decide, ?_, ?_⟩
  · have := hm1.1
    rw [hpjd] at this
    exact this
  · have := hm1.2.1
    rw [hpjd] at this
    exact this
  · have := hm1.2.2.1
    rw [hpjd] at this
    exact this
  · rw [hs1.1]
  · exact hs1.2 ("/c/ha.tar.gz")

/-! ## Claim C4: single-flight under concurrency -/

/-- C4 counterexample: with two threads requesting the same
previously-uncached prefix, the interleaving in which both threads miss
before either caches (allowed by CPython's `lru_cache`, which does not
hold its lock across the wrapped call) executes the `download_prefix`
body twice, not once; both callers complete, each holding its own
materialization. -/
theorem c4_single_flight_counterexample :
    (concRun 2 [0, 1, 0, 1, 0, 1]).counter = 2 ∧
    (concRun 2 [0, 1, 0, 1, 0, 1]).threads = [⟨3, 0⟩, ⟨3, 1⟩] := by
  constructor
  · decide
  · decide

theorem concRun_seq_aux :
    ∀ (m k : Nat),
      List.foldl concStep
        ⟨some 0, 1, List.replicate k ⟨3, 0⟩ ++ List.replicate m ⟨0, 0⟩⟩
        (List.range' k m) =
      ⟨some 0, 1, List.replicate (k + m) ⟨3, 0⟩⟩ := by
  intro m
  induction m with
  | zero => intro k; simp
  | succ m2 ih =>
    intro k
    rw [List.range'_succ, List.foldl_cons]
    have hget : (List.replicate k (⟨3, 0⟩ : ThreadSt) ++
        List.replicate (m2 + 1) (⟨0, 0⟩ : ThreadSt))[k]? = some ⟨0, 0⟩ := by
      rw [List.getElem?_append_right (by simp)]
      simp
    have hset : (List.replicate k (⟨3, 0⟩ : ThreadSt) ++
        List.replicate (m2 + 1) (⟨0, 0⟩ : ThreadSt)).set k ⟨3, 0⟩ =
        List.replicate (k + 1) (⟨3, 0⟩ : ThreadSt) ++ List.replicate m2 ⟨0, 0⟩ := by
      rw [List.set_append_right _ _ (by simp)]
      rw [List.replicate_succ' k]
      simp [List.replicate_succ, List.append_assoc]
    have hstep : concStep
        ⟨some 0, 1, List.replicate k ⟨3, 0⟩ ++ List.replicate (m2 + 1) ⟨0, 0⟩⟩ k =
        ⟨some 0, 1, List.replicate (k + 1) ⟨3, 0⟩ ++ List.replicate m2 ⟨0, 0⟩⟩ := by
      simp [concStep, List.get?_eq_getElem?, hget, hset]
    rw [hstep]
    have := ih (k + 1)
    rw [show k + 1 + m2 = k + (m2 + 1) from by omega] at this
    exact this

/-- C4 (amended): when the N `get` calls for the one uncached prefix are
sequential (each call completes before the next starts), exactly one
execution of the `download_prefix` body happens and every caller
finishes holding the single materialization. -/
theorem c4_sequential_single_flight (n : Nat) (hn : 0 < n) :
    (concRun n (seqSched n)).counter = 1 ∧
    ∀ th ∈ (concRun n (seqSched n)).threads, th = (⟨3, 0⟩ : ThreadSt) := by
  rcases n with _ | m
  · omega
  · unfold concRun seqSched concInit
    rw [List.foldl_append]
    have h3 : List.foldl concStep ⟨none, 0, List.replicate (m + 1) ⟨0, 0⟩⟩ [0, 0, 0] =
        ⟨some 0, 1, List.replicate 1 ⟨3, 0⟩ ++ List.replicate m ⟨0, 0⟩⟩ := rfl
    rw [show (m + 1) - 1 = m from by omega, h3, concRun_seq_aux m 1]
    constructor
    · rfl
    · intro th hth
      exact List.eq_of_mem_replicate hth

/-- Witness for C4's amended statement at three sequential callers. -/
theorem c4_sequential_single_flight_witness :
    0 < 3 ∧ (concRun 3 (seqSched 3)).counter = 1 ∧
    ∀ th ∈ (concRun 3 (seqSched 3)).threads, th = (⟨3, 0⟩ : ThreadSt) :=
  ⟨by decide, (c4_sequential_single_flight 3 (by decide)).1,
   (c4_sequential_single_flight 3 (by decide)).2⟩

/-! ## Claim C6: failure atomicity of materialization -/

/-- C6 counterexample: on a materialization of `b/d` whose second
download raises, the call propagates the error and registers no cache
entry, but the partially-written local directory is NOT cleaned up before
the error returns: the first file and the partial directory are still on
disk when the caller sees the error. -/
theorem c6_partial_state_counterexample :
    (cacheGet ("/c") hashT fsFail 2 3 (initState ("/c")) ("b/d")).res =
      .error .transferError ∧
    (cacheGet ("/c") hashT fsFail 2 3 (initState ("/c")) ("b/d")).st.entries = [] ∧
    (cacheGet ("/c") hashT fsFail 2 3 (initState ("/c")) ("b/d")).st.disk.isfileD
      ("/c/hd/d/f1") = true ∧
    (cacheGet ("/c") hashT fsFail 2 3 (initState ("/c")) ("b/d")).st.disk.isdirD
      ("/c/hd") = true := by
  refine ⟨by decide, by decide, by decide, by decide⟩

theorem downloadPrefix_rmStaleDir (cp : String) (hash : String → String) (fs : S3FS)
    (fuel : Nat) (pfx : String) (disk : Disk)
    (hdir2 : disk.isdirD (pjoin cp (hash pfx)) = true) :
    Ev.rmStaleDir (pjoin cp (hash pfx)) ∈ (downloadPrefix cp hash fs fuel pfx disk).evs := by
  have hcs : clearStale disk (pjoin cp (hash pfx)) =
      (disk.rmtree (pjoin cp (hash pfx)), [Ev.rmStaleDir (pjoin cp (hash pfx))]) := by
    unfold clearStale
    simp [hdir2]
  unfold downloadPrefix
  simp only [hcs]
  split <;> try split
  all_goals simp

/-- C6 (amended): a failed materialization registers no cache entry (the
entry table is exactly what it was), but the partially-written directory
is not removed before the error propagates; instead, the next
`download_prefix` call for the same prefix removes the stale directory
first: its event log starts with the stale-directory removal, and the
disk that its recursive download starts from contains nothing at or
under the caching directory. -/
theorem c6_failure_no_entry_retry_clean (cp : String) (hash : String → String) (fs : S3FS)
    (maxsize fuel : Nat) (st : CacheState) (pfx : String) (e : PyErr)
    (disk2 : Disk) (q : String)
    (herr : (cacheGet cp hash fs maxsize fuel st pfx).res = .error e)
    (hdir2 : disk2.isdirD (pjoin cp (hash pfx)) = true)
    (hq : q = pjoin cp (hash pfx) ∨ underB (pjoin cp (hash pfx)) q = true) :
    (cacheGet cp hash fs maxsize fuel st pfx).st.entries = st.entries ∧
    Ev.rmStaleDir (pjoin cp (hash pfx)) ∈ (downloadPrefix cp hash fs fuel pfx disk2).evs ∧
    (clearStale disk2 (pjoin cp (hash pfx))).1.isdirD q = false ∧
    (clearStale disk2 (pjoin cp (hash pfx))).1.isfileD q = false := by
  have hcs : clearStale disk2 (pjoin cp (hash pfx)) =
      (disk2.rmtree (pjoin cp (hash pfx)), [Ev.rmStaleDir (pjoin cp (hash pfx))]) := by
    unfold clearStale
    simp [hdir2]
  refine ⟨?_, ?_, ?_, ?_⟩
  · rcases hf : st.entries.find? (fun e2 => e2.1 == pfx) with _ | e0
    · rcases hd : (downloadPrefix cp hash fs fuel pfx st.disk).res with e1 | p
      · rw [cacheGet_miss_error hf hd]
      · by_cases hm : maxsize = 0
        · subst hm
          rw [cacheGet_miss_ok_zero hf hd] at herr
          simp at herr
        · by_cases hlen : maxsize < st.entries.length + 1
          · rcases hgl : ((pfx, p) :: st.entries).getLast? with _ | ev
            · exact absurd (List.getLast?_eq_none_iff.mp hgl) (by simp)
            · rw [cacheGet_miss_ok_evict hf hd hm hlen hgl] at herr
              simp at herr
          · rw [cacheGet_miss_ok_keep hf hd hm hlen] at herr
            simp at herr
    · rw [cacheGet_hit hf] at herr
      simp at herr
  · exact downloadPrefix_rmStaleDir cp hash fs fuel pfx disk2 hdir2
  · rw [hcs]
    exact (rmtree_removes disk2 _ q hq).1
  · rw [hcs]
    exact (rmtree_removes disk2 _ q hq).2

/-- Witness for C6's amended statement on the concrete failing store. -/
theorem c6_failure_no_entry_retry_clean_witness :
    (cacheGet ("/c") hashT fsFail 2 3 (initState ("/c")) ("b/d")).st.entries =
      (initState ("/c")).entries ∧
    Ev.rmStaleDir (pjoin ("/c") (hashT ("b/d"))) ∈
      (downloadPrefix ("/c") hashT fsFail 3 ("b/d")
        ⟨["/c/hd/d", "/c/hd", "/c"], ["/c/hd/d/f1"]⟩).evs ∧
    (clearStale ⟨["/c/hd/d", "/c/hd", "/c"], ["/c/hd/d/f1"]⟩
      (pjoin ("/c") (hashT ("b/d")))).1.isdirD ("/c/hd/d/f1") = false ∧
    (clearStale ⟨["/c/hd/d", "/c/hd", "/c"], ["/c/hd/d/f1"]⟩
      (pjoin ("/c") (hashT ("b/d")))).1.isfileD ("/c/hd/d/f1") = false :=
  c6_failure_no_entry_retry_clean ("/c") hashT fsFail 2 3 (initState ("/c")) ("b/d")
    PyErr.transferError ⟨["/c/hd/d", "/c/hd", "/c"], ["/c/hd/d/f1"]⟩ ("/c/hd/d/f1")
    (by decide) (by decide) (by decide)

/-! ## Claim C7: HTTP outcome classes -/

/-- C7 counterexample: a request outside the allow-list is answered with
status 405, not a 403-class status, and a materialization failure caused
by a `PermissionError` from the store is also answered with 405, not a
500-class status. -/
theorem c7_status_counterexample :
    (getS3Prefix [("bucket")] ("/c") hashT fsLeaf 2 3 (initState ("/c"))
      (some ("other/x"))).1 = Resp.accessErr ("other/x") ∧
    respStatus (getS3Prefix [("bucket")] ("/c") hashT fsLeaf 2 3 (initState ("/c"))
      (some ("other/x"))).1 = 405 ∧
    405 ≠ 403 ∧
    (getS3Prefix [("bucket")] ("/c") hashT fsPerm 2 3 (initState ("/c"))
      (some ("bucket/p"))).1 = Resp.accessErr ("bucket/p") ∧
    respStatus (getS3Prefix [("bucket")] ("/c") hashT fsPerm 2 3 (initState ("/c"))
      (some ("bucket/p"))).1 = 405 ∧
    ¬ (500 ≤ 405) := by
  refine ⟨by decide, by decide, by decide, by decide, by decide, by decide⟩

/-- C7 (amended): the route's outcome classes as the code implements
them: an allow-list failure and a non-existing remote prefix both answer
405; a materialization failure answers 405 when the store raised
`PermissionError` and 500 for every other exception; success serves the
artifact with 200. -/
theorem c7_statuses (buckets : List String) (cp : String) (hash : String → String)
    (fs : S3FS) (maxsize fuel : Nat) (st : CacheState) (path : String) :
    (allowCheck buckets path = false →
      getS3Prefix buckets cp hash fs maxsize fuel st (some path) = (.accessErr path, st) ∧
      respStatus (getS3Prefix buckets cp hash fs maxsize fuel st (some path)).1 = 405) ∧
    (allowCheck buckets path = true → fs.exObj path = false →
      getS3Prefix buckets cp hash fs maxsize fuel st (some path) = (.notFoundErr path, st) ∧
      respStatus (getS3Prefix buckets cp hash fs maxsize fuel st (some path)).1 = 405) ∧
    (allowCheck buckets path = true → fs.exObj path = true →
      (cacheGet cp hash fs maxsize fuel st path).res = .error .permissionError →
      (getS3Prefix buckets cp hash fs maxsize fuel st (some path)).1 = .accessErr path ∧
      respStatus (getS3Prefix buckets cp hash fs maxsize fuel st (some path)).1 = 405) ∧
    (allowCheck buckets path = true → fs.exObj path = true →
      ∀ e, e ≠ PyErr.permissionError →
        (cacheGet cp hash fs maxsize fuel st path).res = .error e →
        (getS3Prefix buckets cp hash fs maxsize fuel st (some path)).1 = .genericErr e ∧
        respStatus (getS3Prefix buckets cp hash fs maxsize fuel st (some path)).1 = 500) ∧
    (allowCheck buckets path = true → fs.exObj path = true →
      ∀ p2, (cacheGet cp hash fs maxsize fuel st path).res = .ok p2 →
        (getS3Prefix buckets cp hash fs maxsize fuel st (some path)).1 = .fileResp p2 ∧
        respStatus (getS3Prefix buckets cp hash fs maxsize fuel st (some path)).1 = 200) := by
  refine ⟨?_, ?_, ?_, ?_, ?_⟩
  · intro hallow
    simp [getS3Prefix, hallow, respStatus]
  · intro hallow hex
    simp [getS3Prefix, hallow, hex, respStatus]
  · intro hallow hex hres
    simp [getS3Prefix, hallow, hex, hres, respStatus]
  · intro hallow hex e hne hres
    rcases e <;> simp [getS3Prefix, hallow, hex, hres, respStatus] <;> simp at hne
  · intro hallow hex p2 hres
    simp [getS3Prefix, hallow, hex, hres, respStatus]

/-- Witness for C7's amended statement: one concrete request per outcome
class. -/
theorem c7_statuses_witness :
    (getS3Prefix [("bucket")] ("/c") hashT fsLeaf 2 3 (initState ("/c"))
      (some ("other/x"))).1 = Resp.accessErr ("other/x") ∧
    (getS3Prefix [("bucket")] ("/c") hashT fsNone 2 3 (initState ("/c"))
      (some ("bucket/p"))).1 = Resp.notFoundErr ("bucket/p") ∧
    (getS3Prefix [("bucket")] ("/c") hashT fsPerm 2 3 (initState ("/c"))
      (some ("bucket/p"))).1 = Resp.accessErr ("bucket/p") ∧
    (getS3Prefix [("b")] ("/c") hashT fsFail 2 3 (initState ("/c"))
      (some ("b/d"))).1 = Resp.genericErr PyErr.transferError ∧
    respStatus (getS3Prefix [("b")] ("/c") hashT fsFail 2 3 (initState ("/c"))
      (some ("b/d"))).1 = 500 ∧
    (getS3Prefix [("bucket")] ("/c") hashT fsLeaf 2 3 (initState ("/c"))
      (some ("bucket/p"))).1 = Resp.fileResp ("/c/hx/p") := by
  have h1 := (c7_statuses [("bucket")] ("/c") hashT fsLeaf 2 3 (initState ("/c"))
    ("other/x")).1 (by decide)
  have h2 := ((c7_statuses [("bucket")] ("/c") hashT fsNone 2 3 (initState ("/c"))
    ("bucket/p")).2.1 (by decide) (by decide)).1
  have h3 := ((c7_statuses [("bucket")] ("/c") hashT fsPerm 2 3 (initState ("/c"))
    ("bucket/p")).2.2.1 (by decide) (by decide) (by decide)).1
  have h4 := (c7_statuses [("b")] ("/c") hashT fsFail 2 3 (initState ("/c"))
    ("b/d")).2.2.2.1 (by decide) (by decide) PyErr.transferError (by decide) (by decide)
  have h5 := ((c7_statuses [("bucket")] ("/c") hashT fsLeaf 2 3 (initState ("/c"))
    ("bucket/p")).2.2.2.2 (by decide) (by decide) ("/c/hx/p") (by decide)).1
  exact ⟨by rw [h1.1], by rw [h2], h3, h4.1, h4.2, h5⟩

/-! ## Claim C9: the allow-list check is a raw string-prefix test -/

/-- C9: the route's allow-list test passes iff some configured bucket
string is a string prefix of the requested path (no path-component
check), a failing test short-circuits into `access_error`, and in
particular the path `bucketevil/obj`, whose first path component is not
the allowed bucket `bucket`, passes the check and is served. -/
theorem c9_allowlist_raw_string_test :
    (∀ (buckets : List String) (path : String),
      allowCheck buckets path = true ↔ ∃ b ∈ buckets, b.data <+: path.data) ∧
    (∀ (buckets : List String) (cp : String) (hash : String → String) (fs : S3FS)
      (maxsize fuel : Nat) (st : CacheState) (path : String),
      allowCheck buckets path = false →
      getS3Prefix buckets cp hash fs maxsize fuel st (some path) = (.accessErr path, st)) ∧
    allowCheck [("bucket")] ("bucketevil/obj") = true ∧
    (getS3Prefix [("bucket")] ("/c") hashT fsLeaf 2 3 (initState ("/c"))
      (some ("bucketevil/obj"))).1 = Resp.fileResp ("/c/hx/obj") := by
  refine ⟨?_, ?_, by decide, by decide⟩
  · intro buckets path
    simp [allowCheck, startswith, List.any_eq_true, List.isPrefixOf_iff_prefix]
  · intro buckets cp hash fs maxsize fuel st path h
    simp [getS3Prefix, h]

/-- Witness for C9: the iff instantiated at the extending path, and a
blocked request for a path outside the allow-list. -/
theorem c9_allowlist_raw_string_test_witness :
    (allowCheck [("bucket")] ("bucketevil/obj") = true ↔
      ∃ b ∈ [("bucket")], b.data <+: ("bucketevil/obj" : String).data) ∧
    getS3Prefix [("bucket")] ("/c") hashT fsLeaf 2 3 (initState ("/c"))
      (some ("other/x")) = (.accessErr ("other/x"), initState ("/c")) :=
  ⟨c9_allowlist_raw_string_test.1 [("bucket")] ("bucketevil/obj"),
   c9_allowlist_raw_string_test.2.1 [("bucket")] ("/c") hashT fsLeaf 2 3
     (initState ("/c")) ("other/x") (by decide)⟩

/-! ## Claim C2: helper lemmas for the LRU eviction run -/

theorem isfileD_rmfile_self (d : Disk) (p : String) : (d.rmfile p).isfileD p = false := by
  unfold Disk.rmfile Disk.isfileD
  apply contains_false
  intro q hq he
  subst he
  have := (List.mem_filter.mp hq).2
  simp at this

theorem isfileD_rmfile_other (d : Disk) (p q : String) (h : q ≠ p) :
    (d.rmfile p).isfileD q = d.isfileD q := by
  unfold Disk.rmfile Disk.isfileD
  exact contains_filter_of_pred (by simpa using h)

theorem mem_dlTo_dirs {d : Disk} {dest q : String} :
    q ∈ (d.dlTo dest).dirs ↔ q ∈ d.dirs ∨ q ∈ dirChain (dirname dest) := by
  unfold Disk.dlTo Disk.addFile Disk.mkdirpAll
  exact mem_foldl_insStr _ _

theorem mem_dlTo_files {d : Disk} {dest q : String} :
    q ∈ (d.dlTo dest).files ↔ q ∈ d.files ∨ q = dest := by
  unfold Disk.dlTo Disk.addFile Disk.mkdirpAll
  exact mem_insStr

theorem cd_data {cp x : String} (hcp : cp.data.getLast? ≠ some '/') :
    (pjoin cp x).data = cp.data ++ '/' :: x.data :=
  pjoin_data cp x hcp

theorem cd_getLast {cp x : String} (hcp : cp.data.getLast? ≠ some '/')
    (hx0 : x ≠ "") (hxs : noSlash x) :
    (pjoin cp x).data.getLast? ≠ some '/' := by
  rw [cd_data hcp]
  have hsh : cp.data ++ '/' :: x.data = (cp.data ++ ['/']) ++ x.data := by simp
  rw [hsh]
  exact noSlash_getLast (data_ne_nil hx0) hxs

theorem dest_data {cp x : String} (bx : String) (hcp : cp.data.getLast? ≠ some '/')
    (hx0 : x ≠ "") (hxs : noSlash x) :
    (pjoin (pjoin cp x) bx).data = (cp.data ++ '/' :: x.data) ++ '/' :: bx.data := by
  rw [pjoin_data _ _ (cd_getLast hcp hx0 hxs), cd_data hcp]

theorem cd_len {cp x : String} (hcp : cp.data.getLast? ≠ some '/') :
    (pjoin cp x).data.length = cp.data.length + 1 + x.data.length := by
  rw [cd_data hcp]
  simp
  omega

theorem dest_len {cp x : String} (bx : String) (hcp : cp.data.getLast? ≠ some '/')
    (hx0 : x ≠ "") (hxs : noSlash x) :
    (pjoin (pjoin cp x) bx).data.length =
      cp.data.length + 1 + x.data.length + 1 + bx.data.length := by
  rw [dest_data bx hcp hx0 hxs]
  simp
  omega

theorem cd_notin_chain_cp {cp x : String} (hcp : cp.data.getLast? ≠ some '/') :
    (pjoin cp x) ∉ dirChain cp := by
  intro hm
  have := (mem_dirChain hm).length_le
  rw [cd_len hcp] at this
  omega

theorem cd_notin_chain_cd {cp x y : String} (hcp : cp.data.getLast? ≠ some '/')
    (hne : x ≠ y) (hlen : x.data.length = y.data.length) :
    (pjoin cp x) ∉ dirChain (pjoin cp y) := by
  intro hm
  have hp := mem_dirChain hm
  rw [cd_data hcp, cd_data hcp] at hp
  have heq := hp.eq_of_length (by simp [hlen])
  have h2 := List.append_cancel_left heq
  have h3 : x.data = y.data := by
    injection h2
  exact hne (String.ext h3)

theorem dest_notin_chain_cp {cp x : String} (bx : String)
    (hcp : cp.data.getLast? ≠ some '/') (hx0 : x ≠ "") (hxs : noSlash x) :
    (pjoin (pjoin cp x) bx) ∉ dirChain cp := by
  intro hm
  have := (mem_dirChain hm).length_le
  rw [dest_len bx hcp hx0 hxs] at this
  omega

theorem dest_notin_chain_cd {cp x y : String} (bx : String)
    (hcp : cp.data.getLast? ≠ some '/') (hx0 : x ≠ "") (hxs : noSlash x)
    (hlen : x.data.length = y.data.length) :
    (pjoin (pjoin cp x) bx) ∉ dirChain (pjoin cp y) := by
  intro hm
  have := (mem_dirChain hm).length_le
  rw [dest_len bx hcp hx0 hxs, cd_len hcp] at this
  omega

theorem dest_ne_dest {cp x y : String} (bx by2 : String)
    (hcp : cp.data.getLast? ≠ some '/')
    (hx0 : x ≠ "") (hxs : noSlash x) (hy0 : y ≠ "") (hys : noSlash y)
    (hne : x ≠ y) :
    pjoin (pjoin cp x) bx ≠ pjoin (pjoin cp y) by2 := by
  intro he
  have hd := congrArg String.data he
  rw [dest_data bx hcp hx0 hxs, dest_data by2 hcp hy0 hys] at hd
  rw [List.append_assoc, List.append_assoc] at hd
  have h2 := List.append_cancel_left hd
  have h3 : x.data ++ '/' :: bx.data = y.data ++ '/' :: by2.data := by
    injection h2
  exact hne (String.ext (slash_split_inj hxs hys h3).1)

theorem dest_dirname {cp x : String} (X : String) (hcp : cp.data.getLast? ≠ some '/')
    (hx0 : x ≠ "") (hxs : noSlash x) :
    dirname (pjoin (pjoin cp x) (basename X)) = pjoin cp x := by
  apply dirname_eq _ (basename_noSlash X)
  rw [dest_data (basename X) hcp hx0 hxs, cd_data hcp]

theorem downloadPrefix_leaf {cp : String} {hash : String → String} {fs : S3FS}
    {m : Nat} {pfx : String} {disk : Disk}
    (hcd : disk.isdirD (pjoin cp (hash pfx)) = false)
    (hd : fs.isdir pfx = false) (hdl : fs.dl pfx = none) :
    downloadPrefix cp hash fs (m + 1) pfx disk =
      ⟨.ok (pjoin (pjoin cp (hash pfx)) (basename pfx)),
       disk.dlTo (pjoin (pjoin cp (hash pfx)) (basename pfx)),
       [.dl pfx (pjoin (pjoin cp (hash pfx)) (basename pfx))]⟩ := by
  have hcs : clearStale disk (pjoin cp (hash pfx)) = (disk, []) := by
    unfold clearStale
    simp [hcd]
  have hrd := rd_leaf fs m 0 pfx (pjoin cp (hash pfx)) disk hd hdl
  have hr : (recursiveDownload fs (m + 1) 0 pfx (pjoin cp (hash pfx))
      (clearStale disk (pjoin cp (hash pfx))).1).res =
      .ok [pjoin (pjoin cp (hash pfx)) (basename pfx)] := by
    rw [hcs]
    rw [hrd]
  rw [downloadPrefix_single hr, hcs, hrd]
  simp

theorem cacheGet_leaf_miss_keep {cp : String} {g : String → String} {fs : S3FS} {m : Nat}
    {entries : List (String × String)} {disk : Disk} {X : String}
    (hf : entries.find? (fun e => e.1 == X) = none)
    (hcd : disk.isdirD (pjoin cp (g X)) = false)
    (hdX : fs.isdir X = false) (hlX : fs.dl X = none)
    (hlen : ¬ 2 < entries.length + 1) :
    cacheGet cp g fs 2 (m + 1) ⟨entries, disk⟩ X =
      ⟨.ok (pjoin (pjoin cp (g X)) (basename X)),
       ⟨(X, pjoin (pjoin cp (g X)) (basename X)) :: entries,
        disk.dlTo (pjoin (pjoin cp (g X)) (basename X))⟩⟩ := by
  have hdp := @downloadPrefix_leaf cp g fs m X disk hcd hdX hlX
  rw [cacheGet_miss_ok_keep hf (by rw [hdp]) (by omega) hlen, hdp]

theorem cacheGet_leaf_miss_evict {cp : String} {g : String → String} {fs : S3FS} {m : Nat}
    {e1 e2 : String × String} {disk : Disk} {X : String}
    (hf : [e1, e2].find? (fun e => e.1 == X) = none)
    (hcd : disk.isdirD (pjoin cp (g X)) = false)
    (hdX : fs.isdir X = false) (hlX : fs.dl X = none) :
    cacheGet cp g fs 2 (m + 1) ⟨[e1, e2], disk⟩ X =
      ⟨.ok (pjoin (pjoin cp (g X)) (basename X)),
       ⟨[(X, pjoin (pjoin cp (g X)) (basename X)), e1],
        delEntry (disk.dlTo (pjoin (pjoin cp (g X)) (basename X))) e2.2⟩⟩ := by
  have hdp := @downloadPrefix_leaf cp g fs m X disk hcd hdX hlX
  rw [cacheGet_miss_ok_evict hf (by rw [hdp]) (by omega) (by simp)
    (show ((X, pjoin (pjoin cp (g X)) (basename X)) :: [e1, e2]).getLast? = some e2 from rfl),
    hdp]
  simp

/-- C2: LRU eviction order.  With capacity 2 and the call sequence
`get A`, `get B`, `get A`, `get C` on distinct previously-uncached leaf
prefixes (hash digests distinct, slash-free and of equal length, as md5
hex digests are; the cache namespace not ending in a slash, as
`os.path.join(prefix, classname)` guarantees), exactly entry `B` is
evicted when `C` is inserted: the surviving entries are `C` (most
recent) then `A`, `B`'s on-disk artifact no longer exists after the
sequence, and the artifacts of `A` and `C` still exist. -/
theorem c2_lru_eviction (cp : String) (g : String → String) (fs : S3FS)
    (fuel : Nat) (A B C : String)
    (hcp : cp.data.getLast? ≠ some '/')
    (hfuel : 0 < fuel)
    (hAB : A ≠ B) (hAC : A ≠ C) (hBC : B ≠ C)
    (hdA : fs.isdir A = false) (hdB : fs.isdir B = false) (hdC : fs.isdir C = false)
    (hlA : fs.dl A = none) (hlB : fs.dl B = none) (hlC : fs.dl C = none)
    (hA0 : g A ≠ "") (hB0 : g B ≠ "") (hC0 : g C ≠ "")
    (hAs : noSlash (g A)) (hBs : noSlash (g B)) (hCs : noSlash (g C))
    (hhAB : g A ≠ g B) (hhAC : g A ≠ g C) (hhBC : g B ≠ g C)
    (hlAB : (g A).data.length = (g B).data.length)
    (hlAC : (g A).data.length = (g C).data.length) :
    (runGets cp g fs 2 fuel [A, B, A, C] (initState cp)).entries =
      [(C, pjoin (pjoin cp (g C)) (basename C)),
       (A, pjoin (pjoin cp (g A)) (basename A))] ∧
    (runGets cp g fs 2 fuel [A, B, A, C] (initState cp)).disk.isfileD
      (pjoin (pjoin cp (g B)) (basename B)) = false ∧
    (runGets cp g fs 2 fuel [A, B, A, C] (initState cp)).disk.isfileD
      (pjoin (pjoin cp (g A)) (basename A)) = true ∧
    (runGets cp g fs 2 fuel [A, B, A, C] (initState cp)).disk.isfileD
      (pjoin (pjoin cp (g C)) (basename C)) = true := by
  obtain ⟨m, rfl⟩ : ∃ m, fuel = m + 1 := ⟨fuel - 1, by omega⟩
  have hlBC : (g B).data.length = (g C).data.length := by rw [← hlAB, hlAC]
  -- step 1: get A misses and caches
  have hf1 : ([] : List (String × String)).find? (fun e => e.1 == A) = none := rfl
  have hcd1 : (⟨dirChain cp, []⟩ : Disk).isdirD (pjoin cp (g A)) = false := by
    show (dirChain cp).contains (pjoin cp (g A)) = false
    exact contains_false (fun q hq he => cd_notin_chain_cp hcp (he ▸ hq))
  have e1 := @cacheGet_leaf_miss_keep cp g fs m [] ⟨dirChain cp, []⟩ A
    hf1 hcd1 hdA hlA (by simp only [List.length_nil]; omega)
  -- step 2: get B misses and caches
  have hab : (A == B) = false := beq_eq_false_iff_ne.mpr hAB
  have hf2 : [(A, pjoin (pjoin cp (g A)) (basename A))].find?
      (fun e => e.1 == B) = none := by
    simp [List.find?_cons, hab]
  have hcd2 : ((⟨dirChain cp, []⟩ : Disk).dlTo
      (pjoin (pjoin cp (g A)) (basename A))).isdirD (pjoin cp (g B)) = false := by
    apply contains_false
    intro q hq he
    subst he
    rw [mem_dlTo_dirs] at hq
    rcases hq with hq | hq
    · exact cd_notin_chain_cp hcp hq
    · rw [dest_dirname A hcp hA0 hAs] at hq
      exact cd_notin_chain_cd hcp (Ne.symm hhAB) hlAB.symm hq
  have e2 := @cacheGet_leaf_miss_keep cp g fs m
    [(A, pjoin (pjoin cp (g A)) (basename A))]
    ((⟨dirChain cp, []⟩ : Disk).dlTo (pjoin (pjoin cp (g A)) (basename A))) B
    hf2 hcd2 hdB hlB (by simp only [List.length_cons, List.length_nil]; omega)
  -- step 3: get A hits and moves to the front
  have hba : (B == A) = false := beq_eq_false_iff_ne.mpr (Ne.symm hAB)
  have hf3 : [(B, pjoin (pjoin cp (g B)) (basename B)),
      (A, pjoin (pjoin cp (g A)) (basename A))].find?
      (fun e => e.1 == A) = some (A, pjoin (pjoin cp (g A)) (basename A)) := by
    simp [List.find?_cons, hba]
  have hfil : [(B, pjoin (pjoin cp (g B)) (basename B)),
      (A, pjoin (pjoin cp (g A)) (basename A))].filter (fun e2 => e2.1 != A) =
      [(B, pjoin (pjoin cp (g B)) (basename B))] := by
    simp [List.filter_cons, hba]
    exact Ne.symm hAB
  have e3 : cacheGet cp g fs 2 (m + 1)
      ⟨[(B, pjoin (pjoin cp (g B)) (basename B)),
        (A, pjoin (pjoin cp (g A)) (basename A))],
       ((⟨dirChain cp, []⟩ : Disk).dlTo (pjoin (pjoin cp (g A)) (basename A))).dlTo
         (pjoin (pjoin cp (g B)) (basename B))⟩ A =
      ⟨.ok (pjoin (pjoin cp (g A)) (basename A)),
       ⟨[(A, pjoin (pjoin cp (g A)) (basename A)),
         (B, pjoin (pjoin cp (g B)) (basename B))],
        ((⟨dirChain cp, []⟩ : Disk).dlTo (pjoin (pjoin cp (g A)) (basename A))).dlTo
          (pjoin (pjoin cp (g B)) (basename B))⟩⟩ := by
    rw [cacheGet_hit hf3, hfil]
  -- step 4: get C misses and evicts B
  have hac : (A == C) = false := beq_eq_false_iff_ne.mpr hAC
  have hbc : (B == C) = false := beq_eq_false_iff_ne.mpr hBC
  have hf4 : [(A, pjoin (pjoin cp (g A)) (basename A)),
      (B, pjoin (pjoin cp (g B)) (basename B))].find?
      (fun e => e.1 == C) = none := by
    simp [List.find?_cons, hac, hbc]
  have hcd4 : (((⟨dirChain cp, []⟩ : Disk).dlTo
      (pjoin (pjoin cp (g A)) (basename A))).dlTo
      (pjoin (pjoin cp (g B)) (basename B))).isdirD (pjoin cp (g C)) = false := by
    apply contains_false
    intro q hq he
    subst he
    rw [mem_dlTo_dirs, mem_dlTo_dirs] at hq
    rcases hq with (hq | hq) | hq
    · exact cd_notin_chain_cp hcp hq
    · rw [dest_dirname A hcp hA0 hAs] at hq
      exact cd_notin_chain_cd hcp (Ne.symm hhAC) hlAC.symm hq
    · rw [dest_dirname B hcp hB0 hBs] at hq
      exact cd_notin_chain_cd hcp (Ne.symm hhBC) hlBC.symm hq
  have e4 := @cacheGet_leaf_miss_evict cp g fs m
    (A, pjoin (pjoin cp (g A)) (basename A))
    (B, pjoin (pjoin cp (g B)) (basename B))
    (((⟨dirChain cp, []⟩ : Disk).dlTo (pjoin (pjoin cp (g A)) (basename A))).dlTo
      (pjoin (pjoin cp (g B)) (basename B))) C
    hf4 hcd4 hdC hlC
  -- the evicted entry's artifact is a file, not a directory
  have hisdirB : ((((⟨dirChain cp, []⟩ : Disk).dlTo
      (pjoin (pjoin cp (g A)) (basename A))).dlTo
      (pjoin (pjoin cp (g B)) (basename B))).dlTo
      (pjoin (pjoin cp (g C)) (basename C))).isdirD
      (pjoin (pjoin cp (g B)) (basename B)) = false := by
    apply contains_false
    intro q hq he
    subst he
    rw [mem_dlTo_dirs, mem_dlTo_dirs, mem_dlTo_dirs] at hq
    rcases hq with ((hq | hq) | hq) | hq
    · exact dest_notin_chain_cp (basename B) hcp hB0 hBs hq
    · rw [dest_dirname A hcp hA0 hAs] at hq
      exact dest_notin_chain_cd (basename B) hcp hB0 hBs hlAB.symm hq
    · rw [dest_dirname B hcp hB0 hBs] at hq
      exact dest_notin_chain_cd (basename B) hcp hB0 hBs rfl hq
    · rw [dest_dirname C hcp hC0 hCs] at hq
      exact dest_notin_chain_cd (basename B) hcp hB0 hBs hlBC hq
  have hisfileB : ((((⟨dirChain cp, []⟩ : Disk).dlTo
      (pjoin (pjoin cp (g A)) (basename A))).dlTo
      (pjoin (pjoin cp (g B)) (basename B))).dlTo
      (pjoin (pjoin cp (g C)) (basename C))).isfileD
      (pjoin (pjoin cp (g B)) (basename B)) = true := by
    apply contains_iff_mem.mpr
    exact mem_dlTo_files.mpr (Or.inl (mem_dlTo_files.mpr (Or.inr rfl)))
  have hdel : delEntry ((((⟨dirChain cp, []⟩ : Disk).dlTo
      (pjoin (pjoin cp (g A)) (basename A))).dlTo
      (pjoin (pjoin cp (g B)) (basename B))).dlTo
      (pjoin (pjoin cp (g C)) (basename C)))
      (pjoin (pjoin cp (g B)) (basename B)) =
      ((((⟨dirChain cp, []⟩ : Disk).dlTo
      (pjoin (pjoin cp (g A)) (basename A))).dlTo
      (pjoin (pjoin cp (g B)) (basename B))).dlTo
      (pjoin (pjoin cp (g C)) (basename C))).rmfile
      (pjoin (pjoin cp (g B)) (basename B)) := by
    unfold delEntry
    rw [hisdirB, hisfileB]
    simp
  -- distinct artifacts
  have hdBA : pjoin (pjoin cp (g A)) (basename A) ≠ pjoin (pjoin cp (g B)) (basename B) :=
    dest_ne_dest (basename A) (basename B) hcp hA0 hAs hB0 hBs hhAB
  have hdCB : pjoin (pjoin cp (g C)) (basename C) ≠ pjoin (pjoin cp (g B)) (basename B) :=
    dest_ne_dest (basename C) (basename B) hcp hC0 hCs hB0 hBs (Ne.symm hhBC)
  -- run the four calls
  have hrun : runGets cp g fs 2 (m + 1) [A, B, A, C] (initState cp) =
      ⟨[(C, pjoin (pjoin cp (g C)) (basename C)),
        (A, pjoin (pjoin cp (g A)) (basename A))],
       ((((⟨dirChain cp, []⟩ : Disk).dlTo
         (pjoin (pjoin cp (g A)) (basename A))).dlTo
         (pjoin (pjoin cp (g B)) (basename B))).dlTo
         (pjoin (pjoin cp (g C)) (basename C))).rmfile
         (pjoin (pjoin cp (g B)) (basename B))⟩ := by
    show runGets cp g fs 2 (m + 1) [A, B, A, C] ⟨[], ⟨dirChain cp, []⟩⟩ = _
    simp only [runGets, e1, e2, e3, e4]
    rw [hdel]
  rw [hrun]
  refine ⟨rfl, ?_, ?_, ?_⟩
  · exact isfileD_rmfile_self _ _
  · rw [isfileD_rmfile_other _ _ _ hdBA]
    apply contains_iff_mem.mpr
    exact mem_dlTo_files.mpr (Or.inl (mem_dlTo_files.mpr (Or.inl
      (mem_dlTo_files.mpr (Or.inr rfl)))))
  · rw [isfileD_rmfile_other _ _ _ hdCB]
    apply contains_iff_mem.mpr
    exact mem_dlTo_files.mpr (Or.inr rfl)

/-- Witness for C2 at capacity 2, keys `b/a`, `b/b`, `b/c` and the
concrete digest table `hashT`: after `get b/a`, `get b/b`, `get b/a`,
`get b/c`, exactly `b/b` was evicted and its artifact `/c/hb/b` deleted,
while the artifacts of `b/a` and `b/c` remain. -/
theorem c2_lru_eviction_witness :
    (runGets ("/c") hashT fsLeaf 2 1 ["b/a", "b/b", "b/a", "b/c"]
        (initState ("/c"))).entries =
      [("b/c", pjoin (pjoin ("/c") (hashT ("b/c"))) (basename ("b/c"))),
       ("b/a", pjoin (pjoin ("/c") (hashT ("b/a"))) (basename ("b/a")))] ∧
    (runGets ("/c") hashT fsLeaf 2 1 ["b/a", "b/b", "b/a", "b/c"]
        (initState ("/c"))).disk.isfileD
      (pjoin (pjoin ("/c") (hashT ("b/b"))) (basename ("b/b"))) = false ∧
    (runGets ("/c") hashT fsLeaf 2 1 ["b/a", "b/b", "b/a", "b/c"]
        (initState ("/c"))).disk.isfileD
      (pjoin (pjoin ("/c") (hashT ("b/a"))) (basename ("b/a"))) = true ∧
    (runGets ("/c") hashT fsLeaf 2 1 ["b/a", "b/b", "b/a", "b/c"]
        (initState ("/c"))).disk.isfileD
      (pjoin (pjoin ("/c") (hashT ("b/c"))) (basename ("b/c"))) = true ∧
    pjoin (pjoin ("/c") (hashT ("b/b"))) (basename ("b/b")) = "/c/hb/b" := by
  have hmain := c2_lru_eviction ("/c") hashT fsLeaf 1 ("b/a") ("b/b") ("b/c")
    (by decide) (by decide) (by decide) (by decide) (by decide)
    (by decide) (by decide) (by decide) (by decide) (by decide) (by decide)
    (by decide) (by decide) (by decide) (by decide) (by decide) (by decide)
    (by decide) (by decide) (by decide) (by decide) (by decide)
  exact ⟨hmain.1, hmain.2.1, hmain.2.2.1, hmain.2.2.2, by decide⟩
